import Mathlib

/-!
A shallow embedding of the core of the `mcp-memory-server` repository
(`src/memory_server`): the vector-relational store (`database/manager.py`,
`database/schema.py`), the LRU embedding cache (`embedding/cache.py`), the
multi-factor scorer (`utils/scoring.py`) and the memory service
(`service.py`), together with theorems about the behaviour of those
components.

Modelling conventions:
* Python floats are modelled over `ℚ`.
* Timestamps are modelled as `Nat` (UTC instants, totally ordered).
* SHA-256 (`hashlib.sha256(...).hexdigest()`) is an abstract parameter
  `hashFn : String → String`; every theorem holds for an arbitrary hash
  function, hence in particular for SHA-256.
* The embedding model (`EmbeddingService.generate_embedding`) is an abstract
  parameter `embedFn : String → Vec`.
* The sqlite-vec KNN query (`DatabaseManager.vector_search`, a `MATCH`
  query against the C extension over 32-bit floats) is an abstract oracle
  `vsearch : DB → Vec → Nat → ℚ → List (Nat × ℚ)` returning
  `(memory_id, similarity)` pairs.
* The real-valued transcendental component scores (`exp(-days/30)` recency
  and `log`-scaled usage) are abstract parameters `recF usageF : Nat → ℚ`;
  the ranking properties proved here are independent of their values.
* Writes performed by other threads between the exact-duplicate probe and
  the row insert inside `store_memory` are modelled by a parameter
  `other : DB → DB` applied at that program point; purely sequential
  execution is `other = id`.
-/

namespace MemoryServer

/-- Embedding vectors: lists of Python floats, modelled over `ℚ`. -/
abbrev Vec := List ℚ

/-- Python `str.strip()` with no argument: remove leading and trailing
whitespace. (Defined by structural recursion over the character list so
that concrete instances evaluate inside the kernel.) -/
def pyStrip (s : String) : String :=
  String.mk (((s.toList.dropWhile Char.isWhitespace).reverse.dropWhile Char.isWhitespace).reverse)

instance instDecEqExcept {ε α : Type} [DecidableEq ε] [DecidableEq α] :
    DecidableEq (Except ε α) := fun x y =>
  match x, y with
  | .ok a, .ok b => if h : a = b then .isTrue (by rw [h]) else .isFalse (by simp [h])
  | .ok _, .error _ => .isFalse (by simp)
  | .error _, .ok _ => .isFalse (by simp)
  | .error a, .error b => if h : a = b then .isTrue (by rw [h]) else .isFalse (by simp [h])

/-! ## Scorer (`utils/scoring.py`) -/

/-- `ScoringWeights` from `config/settings.py` (defaults 0.4/0.2/0.2/0.2). -/
structure ScoringWeights where
  similarity : ℚ
  recency : ℚ
  priority : ℚ
  usage : ℚ
deriving Repr, DecidableEq

/-- Clamp to the interval `[0, 1]`: `max(0.0, min(1.0, x))`. -/
def clamp01 (x : ℚ) : ℚ := max 0 (min 1 x)

/-- `calculate_priority_score`: the mapping CORE→1, HIGH→0.75, NORMAL→0.5,
LOW→0.25, case-insensitive via `.upper()`, unknown/falsy → 0.5. The Python
`priority.upper() if priority else "NORMAL"` treats the empty string as
falsy; `None` is handled by callers through the `getD "NORMAL"` default. -/
def calculate_priority_score (priority : String) : ℚ :=
  let u := if priority = "" then "NORMAL" else priority.toUpper
  if u = "CORE" then 1
  else if u = "HIGH" then 3/4
  else if u = "NORMAL" then 1/2
  else if u = "LOW" then 1/4
  else 1/2

/-- `calculate_composite_score`: clamp the similarity to `[0,1]`, combine the
four component scores with the configured weights, clamp the result to
`[0,1]`. `recF` models `calculate_recency_score` (exponential decay over the
`created_at` timestamp) and `usageF` models `calculate_usage_score`
(log-scaled `access_count`); both are abstract here. -/
def calculate_composite_score (recF usageF : Nat → ℚ) (weights : ScoringWeights)
    (similarity : ℚ) (created_at : Nat) (priority : String) (access_count : Nat) : ℚ :=
  clamp01 (weights.similarity * clamp01 similarity
    + weights.recency * recF created_at
    + weights.priority * calculate_priority_score priority
    + weights.usage * usageF access_count)

/-- A candidate record handed to `score_memories`: a Python dict whose
relevant keys may each be absent (or `None`), modelled as `Option` fields. -/
structure Candidate where
  id : Option Nat
  created_at : Option Nat
  priority : Option String
  access_count : Option Nat
  tags : Option (List String)
deriving Repr, DecidableEq

/-- The `score_breakdown` dict attached to each scored memory. -/
structure ScoreBreakdown where
  similarity : ℚ
  recency : ℚ
  priority : ℚ
  usage : ℚ
deriving Repr, DecidableEq

/-- A scored memory: the original dict (copied) plus `score` and
`score_breakdown`. -/
structure ScoredMemory where
  orig : Candidate
  score : ℚ
  score_breakdown : ScoreBreakdown
deriving Repr, DecidableEq

/-- The loop body of `score_memories`: drop a candidate with no `id`;
otherwise take `similarity_scores.get(id, 0.0)` (modelled by the total
function `sims`), default a missing `created_at` to now, a missing
`priority` to NORMAL, a missing `access_count` to 0, and attach the
composite score and the breakdown. -/
def scoreOne (recF usageF : Nat → ℚ) (weights : ScoringWeights) (now : Nat)
    (sims : Nat → ℚ) (c : Candidate) : Option ScoredMemory :=
  match c.id with
  | none => none
  | some i =>
    let similarity := sims i
    let created_at := c.created_at.getD now
    let priority := c.priority.getD "NORMAL"
    let access_count := c.access_count.getD 0
    some { orig := c
           score := calculate_composite_score recF usageF weights similarity created_at priority access_count
           score_breakdown :=
             { similarity := similarity
               recency := recF created_at
               priority := calculate_priority_score priority
               usage := usageF access_count } }

/-- Stable insertion step for descending order by `score`: the new element
goes after every existing element with a strictly greater score, hence
before all elements of equal score that were inserted later. -/
def insertDesc (x : ScoredMemory) : List ScoredMemory → List ScoredMemory
  | [] => [x]
  | y :: ys => if x.score < y.score then y :: insertDesc x ys else x :: y :: ys

/-- Stable sort by `score` descending. CPython's `list.sort(key=...,
reverse=True)` is a stable sort producing the unique permutation that is
non-increasing on the key and keeps equal-key elements in input order; this
insertion sort computes exactly that permutation. -/
def sortByScoreDesc : List ScoredMemory → List ScoredMemory
  | [] => []
  | x :: xs => insertDesc x (sortByScoreDesc xs)

/-- `score_memories` from `utils/scoring.py`: score each candidate (dropping
those without an `id`), then sort by composite score descending (stable). -/
def score_memories (recF usageF : Nat → ℚ) (weights : ScoringWeights) (now : Nat)
    (sims : Nat → ℚ) (memories : List Candidate) : List ScoredMemory :=
  sortByScoreDesc (memories.filterMap (scoreOne recF usageF weights now sims))

/-! ## LRU embedding cache (`embedding/cache.py`) -/

/-- `EmbeddingCache`: a bounded map from content hash to embedding backed by
an `OrderedDict`, modelled as an association list whose head is the least
recently used entry and whose last element is the most recently used. -/
structure EmbeddingCache where
  max_size : Nat
  entries : List (String × Vec)
deriving Repr, DecidableEq

namespace EmbeddingCache

/-- `get`: on a miss return `None`; on a hit pop the entry and re-append it
at the end (most recently used), returning the embedding. -/
def get (c : EmbeddingCache) (content_hash : String) : Option Vec × EmbeddingCache :=
  match c.entries.find? (fun e => e.1 == content_hash) with
  | none => (none, c)
  | some e =>
    (some e.2,
     { c with entries := (c.entries.eraseP (fun p => p.1 == content_hash)) ++ [(content_hash, e.2)] })

/-- `set`: ignore empty embeddings; if the key is already present pop it and
re-append at the end; otherwise, if at capacity, evict the least recently
used entry (the first item of the `OrderedDict`) before appending. -/
def set (c : EmbeddingCache) (content_hash : String) (embedding : Vec) : EmbeddingCache :=
  if embedding = [] then c
  else if (c.entries.find? (fun e => e.1 == content_hash)).isSome then
    { c with entries := (c.entries.eraseP (fun p => p.1 == content_hash)) ++ [(content_hash, embedding)] }
  else if c.max_size ≤ c.entries.length then
    { c with entries := c.entries.tail ++ [(content_hash, embedding)] }
  else
    { c with entries := c.entries ++ [(content_hash, embedding)] }

/-- `clear`. -/
def clear (c : EmbeddingCache) : EmbeddingCache := { c with entries := [] }

/-- `size` / `__len__`. -/
def size (c : EmbeddingCache) : Nat := c.entries.length

end EmbeddingCache

/-! ## Vector-relational store (`database/manager.py`, `database/schema.py`) -/

/-- `validate_priority` from `schema.py`: exact membership in the closed
`Priority` enum. -/
def validate_priority (priority : String) : Bool :=
  ["CORE", "HIGH", "NORMAL", "LOW"].contains priority

/-- A row of the `memories` table (columns of `SQL_CREATE_MEMORIES_TABLE`;
the unused `usage_contexts` column is omitted, it is never written). -/
structure Row where
  id : Nat
  content : String
  content_hash : String
  priority : String
  category : Option String
  tags : Option (List String)
  project_id : Option String
  source : Option String
  created_at : Nat
  updated_at : Nat
  embedding_model : String
  embedding_model_version : String
  embedding_dimension : Nat
  access_count : Nat
  last_accessed_at : Option Nat
deriving Repr, DecidableEq

/-- A row of the `vec_memories` virtual table. -/
structure VecRow where
  memory_id : Nat
  embedding : Vec
deriving Repr, DecidableEq

/-- The database: the two tables plus the `AUTOINCREMENT` counter of the
`memories` primary key (sqlite `AUTOINCREMENT` never reuses an id, even
after deletion). -/
structure DB where
  memories : List Row
  vectors : List VecRow
  next_id : Nat
deriving Repr, DecidableEq

/-- Errors raised by store-level operations: `ValueError` for an invalid
priority, `ValueError` for an embedding-dimension mismatch,
`sqlite3.IntegrityError` for the UNIQUE `content_hash` constraint, and the
`sqlite3.OperationalError` / `ProgrammingError` that `cursor.execute`
raises when the SQL text it is handed does not parse as one statement with
the right number of placeholders. -/
inductive DBError where
  | invalidPriority
  | dimensionMismatch
  | duplicateHash
  | operationalError
deriving Repr, DecidableEq

namespace DatabaseManager

/-- `get_memory_by_id`: `SELECT * FROM memories WHERE id = ?`. -/
def get_memory_by_id (memory_id : Nat) (db : DB) : Option Row :=
  db.memories.find? (fun m => m.id == memory_id)

/-- `get_memory_by_hash`: `SELECT * FROM memories WHERE content_hash = ?`. -/
def get_memory_by_hash (content_hash : String) (db : DB) : Option Row :=
  db.memories.find? (fun m => m.content_hash == content_hash)

/-- `check_duplicate_hash`: `SELECT id FROM memories WHERE content_hash = ?`,
returning the id when a row exists. -/
def check_duplicate_hash (content_hash : String) (db : DB) : Option Nat :=
  (db.memories.find? (fun m => m.content_hash == content_hash)).map Row.id

/-- `insert_memory`: validate the priority, then the embedding dimension;
the `INSERT INTO memories` fires the UNIQUE constraint on `content_hash`
(raising `IntegrityError` before the vector insert is reached); otherwise
the row and its vector are written in one transaction and the new
`lastrowid` is returned. Any failure rolls the transaction back, leaving
the database unchanged. -/
def insert_memory (hashFn : String → String) (now : Nat) (content : String)
    (embedding : Vec) (priority : String) (category : Option String)
    (tags : Option (List String)) (project_id : Option String) (source : Option String)
    (embedding_model embedding_model_version : String) (embedding_dimension : Nat)
    (db : DB) : Except DBError (Nat × DB) :=
  if ¬ validate_priority priority then .error .invalidPriority
  else if embedding.length ≠ embedding_dimension then .error .dimensionMismatch
  else
    let content_hash := hashFn content
    if db.memories.any (fun m => m.content_hash == content_hash) then .error .duplicateHash
    else
      let memory_id := db.next_id
      let row : Row :=
        { id := memory_id, content, content_hash, priority, category, tags,
          project_id, source, created_at := now, updated_at := now,
          embedding_model, embedding_model_version, embedding_dimension,
          access_count := 0, last_accessed_at := none }
      .ok (memory_id,
        { memories := db.memories ++ [row]
          vectors := db.vectors ++ [{ memory_id, embedding }]
          next_id := memory_id + 1 })

/-- `delete_memory`: `DELETE FROM vec_memories WHERE memory_id = ?` then
`DELETE FROM memories WHERE id = ?` in one transaction; the returned flag is
`cursor.rowcount > 0` of the `memories` delete. -/
def delete_memory (memory_id : Nat) (db : DB) : Bool × DB :=
  let vectors := db.vectors.filter (fun v => v.memory_id != memory_id)
  let memories := db.memories.filter (fun m => m.id != memory_id)
  let deleted := memories.length < db.memories.length
  (deleted, { memories := memories, vectors := vectors, next_id := db.next_id })

/-- `update_access_count`: `UPDATE memories SET access_count = access_count +
1, last_accessed_at = CURRENT_TIMESTAMP WHERE id = ?`; silent when no row
matches. -/
def update_access_count (memory_id : Nat) (now : Nat) (db : DB) : DB :=
  { db with memories := db.memories.map (fun m =>
      if m.id = memory_id then
        { m with access_count := m.access_count + 1, last_accessed_at := some now }
      else m) }

end DatabaseManager

/-- Inclusive date range, the `date_range` filter value (`start` / `end`
keys, both optional; the `end` key is called `stop` here because `end` is a
Lean keyword). -/
structure DateRange where
  start : Option Nat
  stop : Option Nat
deriving Repr, DecidableEq

/-- Filters accepted by the store-level `list_memories` (unknown keys are
ignored by the source, so only the recognised keys are modelled). -/
structure ListFilters where
  priority : Option String
  project_id : Option String
  tags : Option (List String)
  date_range : Option DateRange
deriving Repr, DecidableEq

/-- Substring test on strings (the SQL `LIKE %pat%`). -/
def containsSubstring (s pat : String) : Bool :=
  go pat.toList s.toList
where
  go (pat : List Char) : List Char → Bool
    | [] => pat.isEmpty
    | c :: rest => pat.isPrefixOf (c :: rest) || go pat rest

/-- `json.dumps(tags)` for a tag list: a JSON array of strings (tag tokens
are assumed not to contain a double quote, as §9 of the design requires). -/
def dumpTags (tags : List String) : String :=
  "[" ++ String.intercalate ", " (tags.map (fun t => "\"" ++ t ++ "\"")) ++ "]"

namespace DatabaseManager

/-- The WHERE clause built by the store-level `list_memories`, applied to a
row: `priority = ?` and `project_id = ?` exact, `tags LIKE %"t"%` over the
JSON-serialised tag column (OR across tag tokens, false on a NULL column),
`created_at >= start` and `created_at <= end`. An empty tag list adds no
condition (Python truthiness check). -/
def rowMatchesFilters (filters : ListFilters) (m : Row) : Bool :=
  (match filters.priority with
   | none => true
   | some p => m.priority == p)
  && (match filters.project_id with
   | none => true
   | some pid => m.project_id == some pid)
  && (match filters.tags with
   | none => true
   | some ts =>
     if ts.isEmpty then true
     else ts.any (fun t =>
       match m.tags with
       | none => false
       | some mt => containsSubstring (dumpTags mt) ("\"" ++ t ++ "\"")))
  && (match filters.date_range with
   | none => true
   | some dr =>
     (match dr.start with
      | none => true
      | some s => s ≤ m.created_at)
     && (match dr.stop with
      | none => true
      | some e => m.created_at ≤ e))

/-- Stable insertion step, ascending by `created_at`. -/
def insertByCreatedAsc (x : Row) : List Row → List Row
  | [] => [x]
  | y :: ys => if y.created_at ≤ x.created_at then y :: insertByCreatedAsc x ys else x :: y :: ys

/-- Stable sort of rows ascending by `created_at`. -/
def sortByCreatedAsc : List Row → List Row
  | [] => []
  | x :: xs => insertByCreatedAsc x (sortByCreatedAsc xs)

/-- The effect of the `ORDER BY {sort_by} {sort_order}` fragment on the row
list, for a query the engine accepts. Only the `created_at` key (the
documented default) is given an ordering here: for any other accepted
ORDER BY expression the engine-defined ordering is not modelled (no claim
depends on it), so those rows are left in table order. -/
def sortRowsBy (sort_by sort_order : String) (rows : List Row) : List Row :=
  if sort_by = "created_at" then
    if sort_order = "ASC" then sortByCreatedAsc rows else (sortByCreatedAsc rows).reverse
  else rows

/-- The SQL text built by `list_memories` (`manager.py` lines 468-473,
whitespace normalised): the `sort_by` and `sort_order` strings are
interpolated verbatim into the query by the f-string — there is no
validation of either against any whitelist. -/
def list_memories_query (where_clause sort_by sort_order : String) : String :=
  "SELECT * FROM memories " ++ where_clause ++ " ORDER BY " ++ sort_by ++ " " ++ sort_order
    ++ " LIMIT ? OFFSET ?"

/-- The SQL engine's parser, abstracted: `accepts sort_by sort_order` tells
whether `cursor.execute` accepts the list query whose `ORDER BY` clause
interpolates these two strings (one statement, placeholders bindable).
Acceptance is a fact about SQLite's parser, outside the store's own code:
a column name or a valid expression such as `LENGTH(content)` is accepted;
a text like `content_hash; --` is not — its semicolon ends the statement,
the `--` comments out only the rest of its own line, and the
`LIMIT ? OFFSET ?` tail becomes a second statement with unbindable
placeholders, so `execute` raises. -/
structure SqlEngine where
  accepts : String → String → Bool

/-- Store-level `list_memories`: the query text is built with the sort key
interpolated verbatim and handed to the engine unconditionally — the store
itself never rejects a key. If the engine accepts the text, the filtered,
ordered rows are returned with `LIMIT ? OFFSET ?` applied (offset first);
if it does not, `cursor.execute` raises. -/
def list_memories (engine : SqlEngine) (filters : ListFilters)
    (sort_by sort_order : String) (limit offset : Nat) (db : DB) :
    Except DBError (List Row) :=
  if engine.accepts sort_by sort_order then
    .ok (((sortRowsBy sort_by sort_order
      (db.memories.filter (rowMatchesFilters filters))).drop offset).take limit)
  else .error .operationalError

/-- The memories-table column names (`COL_*` of `schema.py`): the whitelist
the specification says the sort key is validated against. -/
def memoriesSortWhitelist : List String :=
  ["id", "content", "content_hash", "priority", "category", "tags", "project_id",
   "source", "created_at", "updated_at", "embedding_model", "embedding_model_version",
   "embedding_dimension", "access_count", "last_accessed_at", "usage_contexts"]

/-- Refinement comparison, following the specification words: "sort key
validated against a whitelist of columns" — a non-whitelisted key is
rejected (`none`) before any query is built; a whitelisted key behaves as
the store does. -/
def list_memories_spec (engine : SqlEngine) (filters : ListFilters)
    (sort_by sort_order : String) (limit offset : Nat) (db : DB) :
    Option (Except DBError (List Row)) :=
  if memoriesSortWhitelist.contains sort_by then
    some (list_memories engine filters sort_by sort_order limit offset db)
  else none

end DatabaseManager

/-! ## Memory service (`service.py`) -/

/-- Errors raised by service operations: `ValueError` for invalid input;
the `RuntimeError("Failed to store memory: ...")` wrapper that
`store_memory` raises around any exception escaping the insert; and a
store-level exception propagating unwrapped through a service operation
that has no handler (such as `list_memories`). -/
inductive SvcError where
  | valueError : String → SvcError
  | runtimeError : DBError → SvcError
  | dbError : DBError → SvcError
deriving Repr, DecidableEq

/-- The mutable state owned by a `MemoryService`: the database and the
embedding cache. -/
structure SvcState where
  db : DB
  cache : EmbeddingCache
deriving Repr, DecidableEq

/-- The ambient context of a `MemoryService`: the abstract hash, model and
KNN functions, the scoring parameters, the settings, the current time, and
the concurrent-writes point `other` (see the module docstring). -/
structure MemCtx where
  hashFn : String → String
  embedFn : String → Vec
  vsearch : DB → Vec → Nat → ℚ → List (Nat × ℚ)
  engine : DatabaseManager.SqlEngine
  recF : Nat → ℚ
  usageF : Nat → ℚ
  weights : ScoringWeights
  auto_check : Bool
  dup_threshold : ℚ
  sim_threshold : ℚ
  model_name : String
  model_version : String
  dimension : Nat
  now : Nat
  other : DB → DB

/-- The `near_duplicate` record of a store response. -/
structure NearDuplicate where
  memory_id : Nat
  similarity : ℚ
  suggestion : String
deriving Repr, DecidableEq

/-- The response of `store_memory`. -/
structure StoreResult where
  memory_id : Nat
  duplicate : Bool
  near_duplicate : Option NearDuplicate
  success : Bool
deriving Repr, DecidableEq

/-- The response of `delete_memory`. -/
structure DeleteResult where
  success : Bool
  memory_id : Option Nat
deriving Repr, DecidableEq

/-- The response of `search_memory`. -/
structure SearchResult where
  memories : List ScoredMemory
  total : Nat
  limit : Nat
deriving Repr, DecidableEq

/-- The response of the service-level `list_memories`. -/
structure ListResult where
  memories : List Row
  total : Nat
  limit : Nat
  offset : Nat
  has_more : Bool
deriving Repr, DecidableEq

/-- Filters applied in-process by `search_memory` (`_apply_filters`). -/
structure SearchFilters where
  priority : Option String
  tags : Option (List String)
  date_range : Option DateRange
deriving Repr, DecidableEq

namespace MemoryService

/-- The embedding step of `store_memory`: `cache.get(h)` (which touches the
entry on a hit), and on a miss `embed(content)` followed by
`cache.set(h, vec)`. -/
def cachedEmbed (embedFn : String → Vec) (cache : EmbeddingCache)
    (content_hash content : String) : Vec × EmbeddingCache :=
  match cache.get content_hash with
  | (some e, c) => (e, c)
  | (none, c) =>
    let e := embedFn content
    (e, c.set content_hash e)

/-- `_check_near_duplicate`: run `vector_search(vec, 5, τ_dup)`; if empty
return `None`; otherwise take only the FIRST result, fetch its row, and
return `None` when that row's `content_hash` equals the new hash, else
report it. Note that only the top candidate is ever examined. -/
def check_near_duplicate (ctx : MemCtx) (db : DB) (embedding : Vec)
    (content_hash : String) : Option NearDuplicate :=
  match ctx.vsearch db embedding 5 ctx.dup_threshold with
  | [] => none
  | (similar_id, similarity) :: _ =>
    match DatabaseManager.get_memory_by_id similar_id db with
    | some m =>
      if m.content_hash = content_hash then none
      else some { memory_id := similar_id, similarity, suggestion := "Consider merging with existing memory" }
    | none => some { memory_id := similar_id, similarity, suggestion := "Consider merging with existing memory" }

/-- Refinement comparison, following the specification words for §4.D step
5: "Exclude any candidate whose `content_hash == h` ...; if a candidate
remains, record it as `near_duplicate`" — every candidate with the new hash
is excluded, and the first remaining candidate (the most similar one) is
reported. -/
def check_near_duplicate_spec (ctx : MemCtx) (db : DB) (embedding : Vec)
    (content_hash : String) : Option NearDuplicate :=
  let candidates := ctx.vsearch db embedding 5 ctx.dup_threshold
  let remaining := candidates.filter (fun c =>
    match DatabaseManager.get_memory_by_id c.1 db with
    | some m => m.content_hash != content_hash
    | none => true)
  match remaining with
  | [] => none
  | (similar_id, similarity) :: _ =>
    some { memory_id := similar_id, similarity, suggestion := "Consider merging with existing memory" }

/-- `store_memory`: reject blank content; probe the exact duplicate by hash
and return a duplicate-success response when found (before any embedding
work); get or compute the embedding through the cache; optionally run the
near-duplicate check; insert; wrap any insert-time error in a
`RuntimeError` and re-raise it. `ctx.other` is applied to the database
between the probe and the remaining store accesses, modelling writes of
other threads (`fun db => db` for sequential execution). -/
def store_memory (ctx : MemCtx) (content : String) (tags : Option (List String))
    (priority : String) (category source project_id : Option String)
    (st : SvcState) : Except SvcError StoreResult × SvcState :=
  if pyStrip content = "" then (.error (.valueError "Content cannot be empty"), st)
  else
    let content_hash := ctx.hashFn content
    match DatabaseManager.check_duplicate_hash content_hash st.db with
    | some existing_id =>
      (.ok { memory_id := existing_id, duplicate := true, near_duplicate := none, success := true }, st)
    | none =>
      let ec := cachedEmbed ctx.embedFn st.cache content_hash content
      let db1 := ctx.other st.db
      let near_duplicate :=
        if ctx.auto_check then check_near_duplicate ctx db1 ec.1 content_hash else none
      match DatabaseManager.insert_memory ctx.hashFn ctx.now content ec.1 priority category
          tags project_id source ctx.model_name ctx.model_version ctx.dimension db1 with
      | .ok (memory_id, db2) =>
        (.ok { memory_id, duplicate := false, near_duplicate, success := true },
         { db := db2, cache := ec.2 })
      | .error e => (.error (.runtimeError e), { db := db1, cache := ec.2 })

/-- `_apply_filters` from `service.py`: priority exact match against the
possibly-missing key, tag-any-of membership against the in-process tag
list, inclusive date-range bounds on `created_at` (a memory without
`created_at` passes the date filter — the source only compares under
`if created_at:`). -/
def apply_filters (memories : List ScoredMemory) (filters : SearchFilters) : List ScoredMemory :=
  memories.filter (fun m =>
    (match filters.priority with
     | none => true
     | some p => m.orig.priority == some p)
    && (match filters.tags with
     | none => true
     | some ts =>
       if ts.isEmpty then true
       else ts.any (fun t => (m.orig.tags.getD []).contains t))
    && (match filters.date_range with
     | none => true
     | some dr =>
       match m.orig.created_at with
       | none => true
       | some c =>
         (match dr.start with
          | none => true
          | some s => s ≤ c)
         && (match dr.stop with
          | none => true
          | some e => c ≤ e)))

/-- The candidate dict that a hydrated database row presents to
`score_memories` (all scored keys present). -/
def rowToCandidate (m : Row) : Candidate :=
  { id := some m.id, created_at := some m.created_at, priority := some m.priority,
    access_count := some m.access_count, tags := m.tags }

/-- `search_memory`: reject a blank query; embed it (not cached); KNN with
`limit * 2` oversampling at `τ_sim`; hydrate each id with the read-only
`get_memory_by_id`; composite-score; post-filter; re-sort by score; return
the top `limit`. The similarity dict is built by a comprehension in which a
later pair overwrites an earlier one with the same id, with default 0.
No database write happens anywhere on this path. -/
def search_memory (ctx : MemCtx) (query : String) (limit : Nat)
    (filters : SearchFilters) (st : SvcState) : Except SvcError SearchResult × SvcState :=
  if pyStrip query = "" then (.error (.valueError "Query cannot be empty"), st)
  else
    let query_embedding := ctx.embedFn query
    match ctx.vsearch st.db query_embedding (limit * 2) ctx.sim_threshold with
    | [] => (.ok { memories := [], total := 0, limit }, st)
    | vector_results =>
      let memory_ids := vector_results.map Prod.fst
      let similarity_scores : Nat → ℚ := fun i =>
        (((vector_results.reverse).find? (fun p => p.1 == i)).map Prod.snd).getD 0
      let memories := memory_ids.filterMap (fun i => DatabaseManager.get_memory_by_id i st.db)
      let scored := score_memories ctx.recF ctx.usageF ctx.weights ctx.now similarity_scores
        (memories.map rowToCandidate)
      let filtered := apply_filters scored filters
      let sorted := sortByScoreDesc filtered
      let result := sorted.take limit
      (.ok { memories := result, total := result.length, limit }, st)

/-- Service-level `list_memories`: thin wrapper over the store requesting
`limit + 1` rows to compute `has_more`, then truncating. It has no
exception handler, so a store-level error propagates as-is; the state is
untouched either way. -/
def list_memories (ctx : MemCtx) (filters : ListFilters) (sort_by sort_order : String)
    (limit offset : Nat) (st : SvcState) : Except SvcError ListResult × SvcState :=
  match DatabaseManager.list_memories ctx.engine filters sort_by sort_order (limit + 1)
      offset st.db with
  | .ok rows =>
    let has_more := limit < rows.length
    let ms := if has_more then rows.take limit else rows
    (.ok { memories := ms, total := ms.length, limit, offset, has_more }, st)
  | .error e => (.error (.dbError e), st)

/-- The shared tail of `delete_memory`: the store-level delete by id and the
response shape. -/
def delete_by_id (memory_id : Nat) (st : SvcState) : Except SvcError DeleteResult × SvcState :=
  let r := DatabaseManager.delete_memory memory_id st.db
  (.ok { success := r.1, memory_id := if r.1 then some memory_id else none },
   { st with db := r.2 })

/-- `delete_memory`: raise `ValueError` when both identifiers are missing;
when only the hash is given resolve it to an id first, returning
`{success: false, memory_id: None}` without raising when no row has that
hash; otherwise (whenever `memory_id` is given, the hash being ignored)
delete by id. The cache is not touched. -/
def delete_memory (memory_id : Option Nat) (content_hash : Option String)
    (st : SvcState) : Except SvcError DeleteResult × SvcState :=
  match memory_id, content_hash with
  | none, none => (.error (.valueError "Either memory_id or content_hash must be provided"), st)
  | none, some h =>
    match DatabaseManager.get_memory_by_hash h st.db with
    | some m => delete_by_id m.id st
    | none => (.ok { success := false, memory_id := none }, st)
  | some i, _ => delete_by_id i st

/-- `get_memory`: fetch the row; when present, bump its access count as a
side effect (the returned row is the one fetched before the bump). -/
def get_memory (now : Nat) (memory_id : Nat) (st : SvcState) : Option Row × SvcState :=
  match DatabaseManager.get_memory_by_id memory_id st.db with
  | some m => (some m, { st with db := DatabaseManager.update_access_count memory_id now st.db })
  | none => (none, st)

end MemoryService

/-- The `DeleteMemoryInput` validation of `tools/delete.py`
(`model_post_init`): the input is accepted whenever at least one of the two
identifiers is present (pydantic field constraints `ge=1` and
`min_length=64` rule out falsy present values); supplying both is accepted. -/
def delete_input_accepted (memory_id : Option Nat) (content_hash : Option String) : Bool :=
  memory_id.isSome || content_hash.isSome

/-! ## Operation sequences and store invariants -/

/-- The ids of the memory rows. -/
def memIds (db : DB) : List Nat := db.memories.map Row.id

/-- The ids of the vector rows. -/
def vecIds (db : DB) : List Nat := db.vectors.map VecRow.memory_id

/-- The content hashes of the memory rows. -/
def hashes (db : DB) : List String := db.memories.map Row.content_hash

/-- The store invariant of §3: memory ids and vector ids are duplicate-free
and in bijection (exactly one vector row per memory row and vice versa),
content hashes are pairwise distinct, and every id is below the
`AUTOINCREMENT` counter (so ids are never reused). -/
structure Wf (db : DB) : Prop where
  mem_nodup : (memIds db).Nodup
  vec_nodup : (vecIds db).Nodup
  ids_eq : ∀ i, i ∈ memIds db ↔ i ∈ vecIds db
  hash_nodup : (hashes db).Nodup
  mem_lt : ∀ m ∈ db.memories, m.id < db.next_id
  vec_lt : ∀ v ∈ db.vectors, v.memory_id < db.next_id

/-- The id-freshness part of the invariant alone: every row id is below the
`AUTOINCREMENT` counter. -/
def IdsBounded (db : DB) : Prop := ∀ m ∈ db.memories, m.id < db.next_id

/-- A store-level mutation: `insert_memory` (with all its arguments) or
`delete_memory`. -/
inductive StoreOp where
  | ins (content : String) (embedding : Vec) (priority : String) (category : Option String)
      (tags : Option (List String)) (project_id source : Option String)
      (embedding_model embedding_model_version : String) (embedding_dimension : Nat)
  | del (memory_id : Nat)

/-- Run one store-level mutation; a failed insert rolls back, leaving the
database unchanged. -/
def applyStoreOp (hashFn : String → String) (now : Nat) (db : DB) : StoreOp → DB
  | .ins c e p cat t proj src em emv dim =>
    match DatabaseManager.insert_memory hashFn now c e p cat t proj src em emv dim db with
    | .ok r => r.2
    | .error _ => db
  | .del i => (DatabaseManager.delete_memory i db).2

/-- Run a sequence of store-level mutations. -/
def applyStoreOps (hashFn : String → String) (now : Nat) (ops : List StoreOp) (db : DB) : DB :=
  ops.foldl (applyStoreOp hashFn now) db

/-- A service-level operation (the five user-visible operations). -/
inductive SOp where
  | store (content : String) (tags : Option (List String)) (priority : String)
      (category source project_id : Option String)
  | search (query : String) (limit : Nat) (filters : SearchFilters)
  | list (filters : ListFilters) (sort_by sort_order : String) (limit offset : Nat)
  | del (memory_id : Option Nat) (content_hash : Option String)
  | get (memory_id : Nat)

/-- Run one service operation, keeping the resulting state (exceptions
carry no result but their side effects on the state persist). -/
def runOp (ctx : MemCtx) (st : SvcState) : SOp → SvcState
  | .store c t p cat src proj => (MemoryService.store_memory ctx c t p cat src proj st).2
  | .search q l f => (MemoryService.search_memory ctx q l f st).2
  | .list f sb so l o => (MemoryService.list_memories ctx f sb so l o st).2
  | .del mid ch => (MemoryService.delete_memory mid ch st).2
  | .get i => (MemoryService.get_memory ctx.now i st).2

/-- Run a sequence of service operations. -/
def runOps (ctx : MemCtx) (ops : List SOp) (st : SvcState) : SvcState :=
  ops.foldl (runOp ctx) st

/-- A cache operation. -/
inductive CacheOp where
  | get (content_hash : String)
  | set (content_hash : String) (embedding : Vec)

/-- Run one cache operation on the cache state. -/
def runCacheOp (c : EmbeddingCache) : CacheOp → EmbeddingCache
  | .get h => (c.get h).2
  | .set h v => c.set h v

/-- Run a sequence of cache operations. -/
def runCacheOps (c : EmbeddingCache) (ops : List CacheOp) : EmbeddingCache :=
  ops.foldl runCacheOp c

/-! ## Concrete fixtures for witnesses and counterexamples -/

/-- A concrete context: the identity as hash function, a constant
1-dimensional embedding model, an empty KNN oracle, sequential execution. -/
def ctx0 : MemCtx :=
  { hashFn := fun s => s
    embedFn := fun _ => [1]
    vsearch := fun _ _ _ _ => []
    engine := { accepts := fun _ _ => true }
    recF := fun _ => 1
    usageF := fun _ => 0
    weights := { similarity := 2/5, recency := 1/5, priority := 1/5, usage := 1/5 }
    auto_check := false
    dup_threshold := 9/10
    sim_threshold := 7/10
    model_name := "all-MiniLM-L6-v2"
    model_version := "v2"
    dimension := 1
    now := 0
    other := fun db => db }

/-- A concrete row whose content hash is its content (matching the identity
hash function of `ctx0`). -/
def mkRow (i : Nat) (content : String) : Row :=
  { id := i, content, content_hash := content, priority := "NORMAL", category := none,
    tags := none, project_id := none, source := none, created_at := 0, updated_at := 0,
    embedding_model := "all-MiniLM-L6-v2", embedding_model_version := "v2",
    embedding_dimension := 1, access_count := 0, last_accessed_at := none }

/-- The empty database. -/
def db0 : DB := { memories := [], vectors := [], next_id := 1 }

/-- A database holding one memory with content (and hash) "hello". -/
def dbHello : DB :=
  { memories := [mkRow 1 "hello"], vectors := [{ memory_id := 1, embedding := [1] }], next_id := 2 }

/-- Service state over the empty database with an empty cache. -/
def st0 : SvcState := { db := db0, cache := { max_size := 1000, entries := [] } }

/-- Service state over `dbHello` with an empty cache. -/
def stHello : SvcState := { db := dbHello, cache := { max_size := 1000, entries := [] } }

/-- A context whose interleave point inserts the "hello" row between the
exact-duplicate probe and the insert (the race of claim C1). -/
def ctxC1 : MemCtx := { ctx0 with other := fun _ => dbHello }

/-- A database with two rows, used by the near-duplicate counterexample. -/
def dbC4 : DB :=
  { memories := [mkRow 1 "hello", mkRow 2 "world"]
    vectors := [{ memory_id := 1, embedding := [1] }, { memory_id := 2, embedding := [1] }]
    next_id := 3 }

/-- A context for the near-duplicate counterexample: dedup auto-check on,
the KNN oracle reports candidate 1 (similarity 0.95) then candidate 2
(similarity 0.92), and the interleave point installs `dbC4` (whose row 1
carries the new content's hash). -/
def ctxC4 : MemCtx :=
  { ctx0 with
    auto_check := true
    vsearch := fun _ _ _ _ => [(1, 95/100), (2, 92/100)]
    other := fun _ => dbC4 }

/-! ## Theorems -/

/-- **C2.** For every state in which a memory with content hash
`h = hash(content)` already exists (the probe `check_duplicate_hash`
returns its id), `store_memory` returns that id with `duplicate = true` and
`success = true` and leaves the whole state — database rows, vector rows
and cache — unchanged. The theorem holds for an arbitrary embedding
function `ctx.embedFn` and the right-hand side does not mention it: no
embedding computation takes place. -/
theorem store_memory_exact_duplicate_idempotent (ctx : MemCtx) (content : String)
    (tags : Option (List String)) (priority : String)
    (category source project_id : Option String) (st : SvcState) (existing_id : Nat)
    (hne : pyStrip content ≠ "")
    (hdup : DatabaseManager.check_duplicate_hash (ctx.hashFn content) st.db = some existing_id) :
    MemoryService.store_memory ctx content tags priority category source project_id st
      = (.ok { memory_id := existing_id, duplicate := true, near_duplicate := none,
               success := true }, st) := by
  simp [MemoryService.store_memory, hne, hdup]

/-- Witness for C2 at a concrete input: re-storing "hello" over `stHello`. -/
theorem store_memory_exact_duplicate_idempotent_witness :
    (pyStrip "hello" ≠ "")
    ∧ DatabaseManager.check_duplicate_hash (ctx0.hashFn "hello") stHello.db = some 1
    ∧ MemoryService.store_memory ctx0 "hello" none "NORMAL" none none none stHello
      = (.ok { memory_id := 1, duplicate := true, near_duplicate := none, success := true },
         stHello) :=
  ⟨by decide, by decide,
   store_memory_exact_duplicate_idempotent ctx0 "hello" none "NORMAL" none none none stHello 1
     (by decide) (by decide)⟩

/-- **C10.** When both `memory_id` and `content_hash` are supplied,
`delete_memory` behaves exactly as if only `memory_id` had been supplied:
the hash is ignored for every hash value (matching another memory, or no
memory at all), and the tool-level input validation accepts the
both-supplied combination (no exactly-one-of constraint). -/
theorem delete_memory_ignores_content_hash :
    (∀ (i : Nat) (h : String) (st : SvcState),
      MemoryService.delete_memory (some i) (some h) st
        = MemoryService.delete_memory (some i) none st)
    ∧ (∀ (i : Nat) (h : String), delete_input_accepted (some i) (some h) = true) :=
  ⟨fun _ _ _ => rfl, fun _ _ => rfl⟩

/-- **C5 (amended).** The store-level `list_memories` performs no
validation of the sort key: the SQL text interpolates `sort_by` and
`sort_order` verbatim into the `ORDER BY` clause and is handed to the
engine unconditionally — whether the request executes is decided solely by
the engine's parsing of the interpolated text, never by any whitelist. In
particular, for every key the engine accepts as an ORDER BY expression —
whitelisted or not — the filtered, ordered, paginated row list is
returned. -/
theorem list_memories_executes_unvalidated_sort_key
    (engine : DatabaseManager.SqlEngine) (filters : ListFilters)
    (sort_by sort_order : String) (limit offset : Nat)
    (db : DB) (where_clause : String)
    (hacc : engine.accepts sort_by sort_order = true) :
    DatabaseManager.list_memories engine filters sort_by sort_order limit offset db
      = .ok (((DatabaseManager.sortRowsBy sort_by sort_order
            (db.memories.filter (DatabaseManager.rowMatchesFilters filters))).drop offset).take
          limit)
    ∧ DatabaseManager.list_memories_query where_clause sort_by sort_order
      = "SELECT * FROM memories " ++ where_clause ++ " ORDER BY " ++ sort_by ++ " "
          ++ sort_order ++ " LIMIT ? OFFSET ?" := by
  constructor
  · unfold DatabaseManager.list_memories
    rw [if_pos hacc]
  · rfl

/-- A concrete engine fixture recording facts about SQLite's parser at the
inputs used below: every memories column name and the expression
`LENGTH(content)` parse as valid ORDER BY keys; any other text — in
particular `content_hash; --`, whose semicolon ends the statement and
leaves the `LIMIT ? OFFSET ?` tail as a second statement with unbindable
placeholders — makes `cursor.execute` raise. -/
def sqliteParserFixture : DatabaseManager.SqlEngine :=
  { accepts := fun sb _ =>
      sb = "LENGTH(content)" || DatabaseManager.memoriesSortWhitelist.contains sb }

/-- Witness for the amended C5: the non-whitelisted but engine-accepted
key `LENGTH(content)` executes and returns the row list. -/
theorem list_memories_executes_unvalidated_sort_key_witness :
    sqliteParserFixture.accepts "LENGTH(content)" "DESC" = true
    ∧ DatabaseManager.list_memories sqliteParserFixture
        { priority := none, project_id := none, tags := none, date_range := none }
        "LENGTH(content)" "DESC" 50 0 dbHello = .ok [mkRow 1 "hello"] := by
  have h := (list_memories_executes_unvalidated_sort_key sqliteParserFixture
    { priority := none, project_id := none, tags := none, date_range := none }
    "LENGTH(content)" "DESC" 50 0 dbHello "" (by decide)).1
  exact ⟨by decide, by rw [h]; decide⟩

/-- Counterexample to C5 as stated: `LENGTH(content)` is not a
memories-table column, so the claimed whitelist validation would reject
the request (the specification-side validated variant returns `none`), yet
the store executes the query built from the unvalidated key and returns
the row list; the built SQL embeds the key verbatim. (The model also keeps
the engine-failure path: a key whose text does not parse, such as
`content_hash; --`, makes the execute raise rather than return rows.) -/
theorem list_memories_sort_key_counterexample :
    DatabaseManager.memoriesSortWhitelist.contains "LENGTH(content)" = false
    ∧ DatabaseManager.list_memories_spec sqliteParserFixture
        { priority := none, project_id := none, tags := none, date_range := none }
        "LENGTH(content)" "DESC" 50 0 dbHello = none
    ∧ DatabaseManager.list_memories sqliteParserFixture
        { priority := none, project_id := none, tags := none, date_range := none }
        "LENGTH(content)" "DESC" 50 0 dbHello = .ok [mkRow 1 "hello"]
    ∧ DatabaseManager.list_memories_query "" "LENGTH(content)" "DESC"
      = "SELECT * FROM memories  ORDER BY LENGTH(content) DESC LIMIT ? OFFSET ?"
    ∧ DatabaseManager.list_memories sqliteParserFixture
        { priority := none, project_id := none, tags := none, date_range := none }
        "content_hash; --" "DESC" 50 0 dbHello = .error .operationalError :=
  ⟨by decide, by decide, by decide, by decide, by decide⟩

/-- **C1 (amended).** When the store-level insert inside `store_memory`
fails with any error `e` — in particular `DuplicateHash`, raised when a row
with the same `content_hash` appears between the exact-duplicate probe and
the insert — `store_memory` does not recover: it wraps the error in a
`RuntimeError` and propagates it to the caller. -/
theorem store_memory_insert_error_propagates (ctx : MemCtx) (content : String)
    (tags : Option (List String)) (priority : String)
    (category source project_id : Option String) (st : SvcState) (e : DBError)
    (hne : pyStrip content ≠ "")
    (hprobe : DatabaseManager.check_duplicate_hash (ctx.hashFn content) st.db = none)
    (hins : DatabaseManager.insert_memory ctx.hashFn ctx.now content
        (MemoryService.cachedEmbed ctx.embedFn st.cache (ctx.hashFn content) content).1
        priority category tags project_id source ctx.model_name ctx.model_version
        ctx.dimension (ctx.other st.db) = .error e) :
    (MemoryService.store_memory ctx content tags priority category source project_id st).1
      = .error (.runtimeError e) := by
  simp [MemoryService.store_memory, hne, hprobe, hins]

/-- Witness for the amended C1: the concrete raced run of `ctxC1`. -/
theorem store_memory_insert_error_propagates_witness :
    (pyStrip "hello" ≠ "")
    ∧ DatabaseManager.check_duplicate_hash (ctxC1.hashFn "hello") st0.db = none
    ∧ DatabaseManager.insert_memory ctxC1.hashFn ctxC1.now "hello"
        (MemoryService.cachedEmbed ctxC1.embedFn st0.cache (ctxC1.hashFn "hello") "hello").1
        "NORMAL" none none none none ctxC1.model_name ctxC1.model_version ctxC1.dimension
        (ctxC1.other st0.db) = .error .duplicateHash
    ∧ (MemoryService.store_memory ctxC1 "hello" none "NORMAL" none none none st0).1
      = .error (.runtimeError .duplicateHash) :=
  ⟨by decide, by decide, by decide,
   store_memory_insert_error_propagates ctxC1 "hello" none "NORMAL" none none none st0
     .duplicateHash (by decide) (by decide) (by decide)⟩

/-- No row with the deleted id survives a store-level delete. -/
lemma find?_filter_ne_id (i : Nat) (l : List Row) :
    (l.filter (fun m => m.id != i)).find? (fun m => m.id == i) = none := by
  rw [List.find?_eq_none]
  intro x hx
  have hmem := List.of_mem_filter hx
  simp only [bne_iff_ne, ne_eq] at hmem
  simp [hmem]

/-- Filtering twice with the same predicate filters once. -/
lemma filter_idem {α : Type} (p : α → Bool) (l : List α) :
    (l.filter p).filter p = l.filter p :=
  List.filter_eq_self.mpr (fun _ ha => List.of_mem_filter ha)

/-- **C9.** `delete_memory` with neither identifier raises `ValueError`;
by an unknown hash it returns `{success: false, memory_id: None}` without
raising; and after a successful delete of an id, `get_memory` on that id
returns absent and a second `delete_memory` returns `success = false` with
the state unchanged (delete is idempotent). -/
theorem delete_memory_error_handling_and_idempotence :
    (∀ st : SvcState,
      MemoryService.delete_memory none none st
        = (.error (.valueError "Either memory_id or content_hash must be provided"), st))
    ∧ (∀ (h : String) (st : SvcState),
        DatabaseManager.get_memory_by_hash h st.db = none →
        MemoryService.delete_memory none (some h) st
          = (.ok { success := false, memory_id := none }, st))
    ∧ (∀ (i : Nat) (st : SvcState) (r : DeleteResult) (st2 : SvcState),
        MemoryService.delete_memory (some i) none st = (.ok r, st2) →
        r.success = true →
        (∀ now, (MemoryService.get_memory now i st2).1 = none)
        ∧ MemoryService.delete_memory (some i) none st2
            = (.ok { success := false, memory_id := none }, st2)) := by
  refine ⟨fun st => rfl,
    fun h st hnone => by simp [MemoryService.delete_memory, hnone], ?_⟩
  intro i st r st2 hdel _hsucc
  have hst2 : st2 = { st with db := (DatabaseManager.delete_memory i st.db).2 } := by
    have h2 := congrArg Prod.snd hdel
    simpa [MemoryService.delete_memory, MemoryService.delete_by_id] using h2.symm
  subst hst2
  have hgone : DatabaseManager.get_memory_by_id i (DatabaseManager.delete_memory i st.db).2 = none := by
    simp only [DatabaseManager.delete_memory, DatabaseManager.get_memory_by_id]
    exact find?_filter_ne_id i st.db.memories
  constructor
  · intro now
    simp [MemoryService.get_memory, hgone]
  · simp [MemoryService.delete_memory, MemoryService.delete_by_id,
      DatabaseManager.delete_memory, filter_idem]

/-- The state left behind by deleting memory 1 from `stHello`. -/
def stHelloDeleted : SvcState :=
  { db := { memories := [], vectors := [], next_id := 2 }
    cache := { max_size := 1000, entries := [] } }

/-- Witness for C9: the concrete delete of memory 1 from `stHello` succeeds,
after which the row is absent and a second delete reports failure. -/
theorem delete_memory_error_handling_and_idempotence_witness :
    MemoryService.delete_memory (some 1) none stHello
      = (.ok { success := true, memory_id := some 1 }, stHelloDeleted)
    ∧ (∀ now, (MemoryService.get_memory now 1 stHelloDeleted).1 = none)
    ∧ MemoryService.delete_memory (some 1) none stHelloDeleted
        = (.ok { success := false, memory_id := none }, stHelloDeleted) :=
  ⟨by decide,
   (delete_memory_error_handling_and_idempotence.2.2 1 stHello
      { success := true, memory_id := some 1 } stHelloDeleted (by decide) rfl).1,
   (delete_memory_error_handling_and_idempotence.2.2 1 stHello
      { success := true, memory_id := some 1 } stHelloDeleted (by decide) rfl).2⟩

/-- Inversion of a successful `insert_memory`: the returned id is the
`AUTOINCREMENT` counter, exactly one memory row and one vector row (with
that id) are appended, the counter advances, and no pre-existing row had
the inserted content hash. -/
lemma insert_memory_ok_shape
    {hashFn : String → String} {now : Nat} {content : String} {embedding : Vec}
    {priority : String} {category : Option String} {tags : Option (List String)}
    {project_id source : Option String} {em emv : String} {dim : Nat} {db : DB}
    {i : Nat} {db2 : DB}
    (hins : DatabaseManager.insert_memory hashFn now content embedding priority category tags
      project_id source em emv dim db = .ok (i, db2)) :
    i = db.next_id
    ∧ db2.memories = db.memories ++
        [{ id := db.next_id, content, content_hash := hashFn content, priority, category, tags,
           project_id, source, created_at := now, updated_at := now, embedding_model := em,
           embedding_model_version := emv, embedding_dimension := dim, access_count := 0,
           last_accessed_at := none }]
    ∧ db2.vectors = db.vectors ++ [{ memory_id := db.next_id, embedding }]
    ∧ db2.next_id = db.next_id + 1
    ∧ (∀ m ∈ db.memories, ¬ m.content_hash = hashFn content) := by
  simp only [DatabaseManager.insert_memory] at hins
  split_ifs at hins with h1 h2 h3
  simp only [Except.ok.injEq, Prod.mk.injEq] at hins
  obtain ⟨hi, hdb⟩ := hins
  subst hi
  subst hdb
  refine ⟨rfl, rfl, rfl, rfl, ?_⟩
  intro m hm hc
  exact h3 (List.any_eq_true.mpr ⟨m, hm, by simp [hc]⟩)

/-- **C4 (amended).** With dedup auto-check enabled, only the top
vector-search candidate is examined: when its row does not carry the new
content's hash, `store_memory` reports exactly that top candidate (id and
similarity) as `near_duplicate` and still inserts the new memory under the
fresh id `next_id`, which differs from every existing row id. (When the top
candidate does carry the new hash, no near-duplicate is reported even if
further candidates above the threshold remain — see the counterexample.) -/
theorem store_memory_reports_top_near_duplicate (ctx : MemCtx) (content : String)
    (tags : Option (List String)) (priority : String)
    (category source project_id : Option String) (st : SvcState)
    (cid : Nat) (sim : ℚ) (rest : List (Nat × ℚ)) (new_id : Nat) (db2 : DB)
    (hne : pyStrip content ≠ "")
    (hprobe : DatabaseManager.check_duplicate_hash (ctx.hashFn content) st.db = none)
    (hauto : ctx.auto_check = true)
    (hvs : ctx.vsearch (ctx.other st.db)
        (MemoryService.cachedEmbed ctx.embedFn st.cache (ctx.hashFn content) content).1 5
        ctx.dup_threshold = (cid, sim) :: rest)
    (htop : ((DatabaseManager.get_memory_by_id cid (ctx.other st.db)).all
        (fun m => m.content_hash != ctx.hashFn content)) = true)
    (hins : DatabaseManager.insert_memory ctx.hashFn ctx.now content
        (MemoryService.cachedEmbed ctx.embedFn st.cache (ctx.hashFn content) content).1
        priority category tags project_id source ctx.model_name ctx.model_version
        ctx.dimension (ctx.other st.db) = .ok (new_id, db2)) :
    (MemoryService.store_memory ctx content tags priority category source project_id st).1
      = .ok { memory_id := new_id
              duplicate := false
              near_duplicate := some { memory_id := cid
                                       similarity := sim
                                       suggestion := "Consider merging with existing memory" }
              success := true }
    ∧ new_id = (ctx.other st.db).next_id
    ∧ (IdsBounded (ctx.other st.db) → ∀ m ∈ (ctx.other st.db).memories, m.id ≠ new_id) := by
  have hshape := insert_memory_ok_shape hins
  have hnd : MemoryService.check_near_duplicate ctx (ctx.other st.db)
      (MemoryService.cachedEmbed ctx.embedFn st.cache (ctx.hashFn content) content).1
      (ctx.hashFn content)
      = some { memory_id := cid
               similarity := sim
               suggestion := "Consider merging with existing memory" } := by
    unfold MemoryService.check_near_duplicate
    rw [hvs]
    cases hm : DatabaseManager.get_memory_by_id cid (ctx.other st.db) with
    | none => simp [hm]
    | some m =>
      rw [hm] at htop
      simp only [Option.all_some, bne_iff_ne, ne_eq] at htop
      simp [hm, htop]
  refine ⟨?_, hshape.1, ?_⟩
  · simp [MemoryService.store_memory, hne, hprobe, hauto, hnd, hins]
  · intro hb m hm
    rw [hshape.1]
    exact Nat.ne_of_lt (hb m hm)

/-- A database holding one memory with content (and hash) "world". -/
def dbWorld : DB :=
  { memories := [mkRow 1 "world"], vectors := [{ memory_id := 1, embedding := [1] }]
    next_id := 2 }

/-- A context for the C4 witness: auto-check on, the KNN oracle reports the
"world" row as top candidate, and the interleave point installs `dbWorld`. -/
def ctxC4b : MemCtx :=
  { ctx0 with
    auto_check := true
    vsearch := fun _ _ _ _ => [(1, 93/100)]
    other := fun _ => dbWorld }

/-- Witness for the amended C4: storing "hello" next to the near "world"
memory reports the top candidate and inserts under the fresh id 2. -/
theorem store_memory_reports_top_near_duplicate_witness :
    (pyStrip "hello" ≠ "")
    ∧ DatabaseManager.check_duplicate_hash (ctxC4b.hashFn "hello") st0.db = none
    ∧ ctxC4b.auto_check = true
    ∧ (MemoryService.store_memory ctxC4b "hello" none "NORMAL" none none none st0).1
      = .ok { memory_id := 2
              duplicate := false
              near_duplicate := some { memory_id := 1
                                       similarity := 93/100
                                       suggestion := "Consider merging with existing memory" }
              success := true } :=
  ⟨by decide, by decide, rfl,
   (store_memory_reports_top_near_duplicate ctxC4b "hello" none "NORMAL" none none none st0
      1 (93/100) [] 2
      { memories := dbWorld.memories ++ [mkRow 2 "hello"]
        vectors := dbWorld.vectors ++ [{ memory_id := 2, embedding := [1] }]
        next_id := 3 }
      (by decide) (by decide) rfl rfl (by decide) rfl).1⟩

/-- Counterexample to C4 as stated: in the raced run of `ctxC4` the KNN
candidates are row 1 (which carries the new content's hash, similarity
0.95) and row 2 (similarity 0.92, above the 0.9 threshold). The claim says
row 2 must be reported as `near_duplicate` and the memory still inserted;
the code examines only the first candidate, reports nothing, and the
subsequent insert fails with `DuplicateHash` wrapped in `RuntimeError`. -/
theorem near_duplicate_exclusion_counterexample :
    MemoryService.check_near_duplicate ctxC4 dbC4 [1] "hello" = none
    ∧ MemoryService.check_near_duplicate_spec ctxC4 dbC4 [1] "hello"
      = some { memory_id := 2
               similarity := 92/100
               suggestion := "Consider merging with existing memory" }
    ∧ (MemoryService.store_memory ctxC4 "hello" none "NORMAL" none none none st0).1
      = .error (.runtimeError .duplicateHash) :=
  ⟨by decide, rfl, by decide⟩

/-- Membership in an `insertDesc` insertion. -/
lemma mem_insertDesc {x b : ScoredMemory} {l : List ScoredMemory} :
    b ∈ insertDesc x l ↔ b = x ∨ b ∈ l := by
  induction l with
  | nil => simp [insertDesc]
  | cons y ys ih =>
    by_cases h : x.score < y.score <;> simp [insertDesc, h, ih] <;> tauto

/-- `insertDesc` preserves the non-increasing-score ordering. -/
lemma insertDesc_pairwise (x : ScoredMemory) (l : List ScoredMemory)
    (hl : l.Pairwise (fun a b => b.score ≤ a.score)) :
    (insertDesc x l).Pairwise (fun a b => b.score ≤ a.score) := by
  induction l with
  | nil => simp [insertDesc]
  | cons y ys ih =>
    rw [List.pairwise_cons] at hl
    obtain ⟨hy, hys⟩ := hl
    by_cases h : x.score < y.score
    · rw [insertDesc, if_pos h]
      rw [List.pairwise_cons]
      refine ⟨?_, ih hys⟩
      intro b hb
      rcases mem_insertDesc.mp hb with hb | hb
      · rw [hb]; exact le_of_lt h
      · exact hy b hb
    · rw [insertDesc, if_neg h]
      rw [List.pairwise_cons]
      refine ⟨?_, List.pairwise_cons.mpr ⟨hy, hys⟩⟩
      intro b hb
      rcases List.mem_cons.mp hb with hb | hb
      · rw [hb]; exact le_of_not_lt h
      · exact le_trans (hy b hb) (le_of_not_lt h)

/-- The output of `sortByScoreDesc` is non-increasing on `score`. -/
lemma sortByScoreDesc_pairwise (l : List ScoredMemory) :
    (sortByScoreDesc l).Pairwise (fun a b => b.score ≤ a.score) := by
  induction l with
  | nil => exact List.Pairwise.nil
  | cons x xs ih => exact insertDesc_pairwise x (sortByScoreDesc xs) ih

/-- Membership is preserved by `sortByScoreDesc`. -/
lemma mem_sortByScoreDesc {b : ScoredMemory} {l : List ScoredMemory} :
    b ∈ sortByScoreDesc l ↔ b ∈ l := by
  induction l with
  | nil => exact Iff.rfl
  | cons x xs ih => rw [sortByScoreDesc, mem_insertDesc, ih, List.mem_cons]

/-- Filtering an insertion at a fixed score: the walked-past prefix has
strictly greater scores, so an equal-score element lands in front of none
of the retained ones. -/
lemma filter_insertDesc (x : ScoredMemory) (l : List ScoredMemory) (q : ℚ) :
    (insertDesc x l).filter (fun s => s.score == q)
      = if x.score == q then x :: l.filter (fun s => s.score == q)
        else l.filter (fun s => s.score == q) := by
  induction l with
  | nil => cases hxq : (x.score == q) <;> simp [insertDesc, List.filter_cons, hxq]
  | cons y ys ih =>
    by_cases h : x.score < y.score
    · rw [insertDesc, if_pos h, List.filter_cons, ih]
      by_cases hx : x.score = q
      · have hyq : ¬ y.score = q := by
          intro hy
          rw [hx, hy] at h
          exact lt_irrefl q h
        simp [hx, hyq, List.filter_cons]
      · simp [hx, List.filter_cons]
    · rw [insertDesc, if_neg h]
      exact List.filter_cons

/-- The stable descending sort keeps the elements of each fixed score in
their input order: filtering at any score commutes with the sort. -/
lemma filter_sortByScoreDesc (l : List ScoredMemory) (q : ℚ) :
    (sortByScoreDesc l).filter (fun s => s.score == q)
      = l.filter (fun s => s.score == q) := by
  induction l with
  | nil => rfl
  | cons x xs ih =>
    rw [sortByScoreDesc, filter_insertDesc, ih, List.filter_cons]

/-- Inversion of a successful `scoreOne`: the output carries the input
candidate and the breakdown computed from the defaulted fields. -/
lemma scoreOne_some {recF usageF : Nat → ℚ} {weights : ScoringWeights} {now : Nat}
    {sims : Nat → ℚ} {c : Candidate} {s : ScoredMemory}
    (h : scoreOne recF usageF weights now sims c = some s) :
    s.orig = c
    ∧ s.score_breakdown.priority = calculate_priority_score (c.priority.getD "NORMAL")
    ∧ s.score_breakdown.usage = usageF (c.access_count.getD 0)
    ∧ s.score_breakdown.recency = recF (c.created_at.getD now)
    ∧ s.score = calculate_composite_score recF usageF weights s.score_breakdown.similarity
        (c.created_at.getD now) (c.priority.getD "NORMAL") (c.access_count.getD 0)
    ∧ c.id.isSome = true := by
  cases hc : c.id with
  | none =>
    simp only [scoreOne, hc] at h
    exact Option.noConfusion h
  | some i =>
    simp only [scoreOne, hc, Option.some.injEq] at h
    subst h
    exact ⟨rfl, rfl, rfl, rfl, rfl, rfl⟩

/-- **C7.** For every candidate list, `score_memories` returns a list
sorted by composite score non-increasing; equal-score candidates appear in
their original input order (stability, stated as: filtering the output at
any fixed score equals filtering the scored input, which is in input
order); candidates missing an `id` are dropped (every output element has
one); and the breakdown of every output element is computed from the
defaulted fields — priority `getD "NORMAL"`, access count `getD 0`,
creation time `getD now`. -/
theorem score_memories_ranking_properties (recF usageF : Nat → ℚ)
    (weights : ScoringWeights) (now : Nat) (sims : Nat → ℚ)
    (memories : List Candidate) :
    (score_memories recF usageF weights now sims memories).Pairwise
        (fun a b => b.score ≤ a.score)
    ∧ (∀ q : ℚ,
        (score_memories recF usageF weights now sims memories).filter
            (fun s => s.score == q)
          = (memories.filterMap (scoreOne recF usageF weights now sims)).filter
              (fun s => s.score == q))
    ∧ (∀ s ∈ score_memories recF usageF weights now sims memories,
        s.orig.id.isSome = true)
    ∧ (∀ s ∈ score_memories recF usageF weights now sims memories,
        s.score_breakdown.priority = calculate_priority_score (s.orig.priority.getD "NORMAL")
        ∧ s.score_breakdown.usage = usageF (s.orig.access_count.getD 0)
        ∧ s.score_breakdown.recency = recF (s.orig.created_at.getD now)
        ∧ s.score = calculate_composite_score recF usageF weights
            s.score_breakdown.similarity (s.orig.created_at.getD now)
            (s.orig.priority.getD "NORMAL") (s.orig.access_count.getD 0)) := by
  refine ⟨sortByScoreDesc_pairwise _, fun q => filter_sortByScoreDesc _ q, ?_, ?_⟩
  · intro s hs
    obtain ⟨c, _, hsc⟩ := List.mem_filterMap.mp (mem_sortByScoreDesc.mp hs)
    have h := scoreOne_some hsc
    rw [h.1]
    exact h.2.2.2.2.2
  · intro s hs
    obtain ⟨c, _, hsc⟩ := List.mem_filterMap.mp (mem_sortByScoreDesc.mp hs)
    have h := scoreOne_some hsc
    rw [h.1]
    exact ⟨h.2.1, h.2.2.1, h.2.2.2.1, h.2.2.2.2.1⟩

/-- `get` does not change the number of cache entries. -/
lemma cache_get_length (c : EmbeddingCache) (h : String) :
    ((c.get h).2).entries.length = c.entries.length := by
  unfold EmbeddingCache.get
  cases hf : c.entries.find? (fun e => e.1 == h) with
  | none => rfl
  | some e =>
    have hmem := List.mem_of_find?_eq_some hf
    have hp := List.find?_some hf
    have hpos : 1 ≤ c.entries.length := List.length_pos.mpr (List.ne_nil_of_mem hmem)
    have herase : (c.entries.eraseP (fun p => p.1 == h)).length = c.entries.length - 1 :=
      List.length_eraseP_of_mem hmem hp
    simp only [List.length_append, herase, List.length_cons, List.length_nil]
    omega

/-- `get` does not change the capacity. -/
lemma cache_get_max (c : EmbeddingCache) (h : String) :
    ((c.get h).2).max_size = c.max_size := by
  unfold EmbeddingCache.get
  cases c.entries.find? (fun e => e.1 == h) <;> rfl

/-- `set` does not change the capacity. -/
lemma cache_set_max (c : EmbeddingCache) (h : String) (v : Vec) :
    (c.set h v).max_size = c.max_size := by
  unfold EmbeddingCache.set
  split_ifs <;> rfl

/-- `set` keeps the entry count at or below the capacity (for a positive
capacity). -/
lemma cache_set_length_le (c : EmbeddingCache) (h : String) (v : Vec)
    (hN : 1 ≤ c.max_size) (hlen : c.entries.length ≤ c.max_size) :
    (c.set h v).entries.length ≤ c.max_size := by
  unfold EmbeddingCache.set
  split_ifs with h1 h2 h3
  · exact hlen
  · obtain ⟨e, he⟩ := Option.isSome_iff_exists.mp h2
    have hmem := List.mem_of_find?_eq_some he
    have hp := List.find?_some he
    have hpos : 1 ≤ c.entries.length := List.length_pos.mpr (List.ne_nil_of_mem hmem)
    have herase : (c.entries.eraseP (fun p => p.1 == h)).length = c.entries.length - 1 :=
      List.length_eraseP_of_mem hmem hp
    simp only [List.length_append, herase, List.length_cons, List.length_nil]
    omega
  · simp only [List.length_append, List.length_tail, List.length_cons, List.length_nil]
    omega
  · simp only [List.length_append, List.length_cons, List.length_nil]
    omega

/-- Running any cache-operation sequence preserves the capacity and keeps
the entry count bounded by it. -/
lemma runCacheOps_capacity (ops : List CacheOp) :
    ∀ c : EmbeddingCache, 1 ≤ c.max_size → c.entries.length ≤ c.max_size →
      (runCacheOps c ops).max_size = c.max_size
      ∧ (runCacheOps c ops).entries.length ≤ c.max_size := by
  induction ops with
  | nil => exact fun c _ hl => ⟨rfl, hl⟩
  | cons op ops ih =>
    intro c hN hl
    have hstep : (runCacheOp c op).max_size = c.max_size
        ∧ (runCacheOp c op).entries.length ≤ c.max_size := by
      cases op with
      | get h => exact ⟨cache_get_max c h, by rw [runCacheOp, cache_get_length]; exact hl⟩
      | set h v => exact ⟨cache_set_max c h v, cache_set_length_le c h v hN hl⟩
    have htail := ih (runCacheOp c op) (hstep.1 ▸ hN) (hstep.1 ▸ hstep.2)
    have hrw : runCacheOps c (op :: ops) = runCacheOps (runCacheOp c op) ops := rfl
    constructor
    · rw [hrw, htail.1, hstep.1]
    · rw [hrw]
      exact le_trans htail.2 (le_of_eq hstep.1)

/-- `set` of a fresh key with a non-empty vector: evict the head when at
capacity, then append at the most-recently-used end. -/
lemma cache_set_fresh (N : Nat) (e : List (String × Vec)) (p : String × Vec)
    (hv : p.2 ≠ []) (hfresh : e.find? (fun q => q.1 == p.1) = none) :
    EmbeddingCache.set { max_size := N, entries := e } p.1 p.2
      = if N ≤ e.length then { max_size := N, entries := e.tail ++ [p] }
        else { max_size := N, entries := e ++ [p] } := by
  unfold EmbeddingCache.set
  rw [if_neg hv]
  have hs : ((({ max_size := N, entries := e } : EmbeddingCache)).entries.find?
      (fun q => q.1 == p.1)).isSome = false := by
    rw [show (({ max_size := N, entries := e } : EmbeddingCache)).entries = e from rfl, hfresh]
    rfl
  rw [if_neg (by rw [hs]; exact Bool.false_ne_true)]

/-- Folding fresh, non-empty inserts into a cache with a positive capacity:
the surviving entries are exactly the last `N` of the previous entries
followed by the inserted pairs, in order. -/
lemma foldl_set_fresh (N : Nat) (hN : 1 ≤ N) :
    ∀ (ps e : List (String × Vec)),
      ((e ++ ps).map Prod.fst).Nodup →
      (∀ p ∈ ps, p.2 ≠ []) →
      e.length ≤ N →
      (runCacheOps { max_size := N, entries := e }
          (ps.map (fun p => CacheOp.set p.1 p.2))).entries
        = (e ++ ps).drop (e.length + ps.length - N) := by
  intro ps
  induction ps with
  | nil =>
    intro e _ _ hle
    rw [List.map_nil, List.append_nil, List.length_nil, Nat.add_zero,
      Nat.sub_eq_zero_of_le hle, List.drop_zero]
    rfl
  | cons p ps ih =>
    intro e hnd hne hle
    have hv : p.2 ≠ [] := hne p (List.mem_cons_self p ps)
    have hfresh : e.find? (fun q => q.1 == p.1) = none := by
      rw [List.find?_eq_none]
      intro x hx hxp
      have hx1 : x.1 = p.1 := by simpa using hxp
      have hxin : p.1 ∈ e.map Prod.fst := hx1 ▸ List.mem_map_of_mem Prod.fst hx
      have hpin : p.1 ∈ (p :: ps).map Prod.fst := by simp
      have hdisj := (List.nodup_append.mp (by rwa [List.map_append] at hnd)).2.2
      exact hdisj hxin hpin
    have hstep : runCacheOps { max_size := N, entries := e }
        ((p :: ps).map (fun q => CacheOp.set q.1 q.2))
        = runCacheOps (EmbeddingCache.set { max_size := N, entries := e } p.1 p.2)
            (ps.map (fun q => CacheOp.set q.1 q.2)) := rfl
    by_cases hcap : N ≤ e.length
    · have hlen : e.length = N := le_antisymm hle hcap
      cases e with
      | nil => rw [List.length_nil] at hlen; omega
      | cons eh et =>
        have hset : EmbeddingCache.set { max_size := N, entries := eh :: et } p.1 p.2
            = { max_size := N, entries := et ++ [p] } := by
          rw [cache_set_fresh N (eh :: et) p hv hfresh, if_pos hcap]
          rfl
        rw [hstep, hset]
        have hnd2 : (((et ++ [p]) ++ ps).map Prod.fst).Nodup := by
          rw [List.append_assoc, List.singleton_append]
          have : ((eh :: et ++ p :: ps).map Prod.fst).Nodup := hnd
          rw [List.cons_append, List.map_cons, List.nodup_cons] at this
          exact this.2
        have hlen2 : (et ++ [p]).length ≤ N := by
          rw [List.length_append, List.length_singleton]
          rw [List.length_cons] at hlen
          omega
        rw [ih (et ++ [p]) hnd2 (fun q hq => hne q (List.mem_cons_of_mem p hq)) hlen2]
        have hidx1 : (et ++ [p]).length + ps.length - N = ps.length := by
          rw [List.length_append, List.length_singleton]
          rw [List.length_cons] at hlen
          omega
        have hidx2 : (eh :: et).length + (p :: ps).length - N = ps.length + 1 := by
          rw [List.length_cons, List.length_cons]
          rw [List.length_cons] at hlen
          omega
        rw [hidx1, hidx2, List.append_assoc, List.singleton_append, List.cons_append,
          List.drop_succ_cons]
    · have hset : EmbeddingCache.set { max_size := N, entries := e } p.1 p.2
          = { max_size := N, entries := e ++ [p] } := by
        rw [cache_set_fresh N e p hv hfresh, if_neg hcap]
      rw [hstep, hset]
      have hnd2 : (((e ++ [p]) ++ ps).map Prod.fst).Nodup := by
        rw [List.append_assoc, List.singleton_append]
        exact hnd
      have hlen2 : (e ++ [p]).length ≤ N := by
        rw [List.length_append, List.length_singleton]
        omega
      rw [ih (e ++ [p]) hnd2 (fun q hq => hne q (List.mem_cons_of_mem p hq)) hlen2]
      have hidx : (e ++ [p]).length + ps.length - N = e.length + (p :: ps).length - N := by
        rw [List.length_append, List.length_singleton, List.length_cons]
        omega
      rw [hidx, List.append_assoc, List.singleton_append]

/-- What `get` returns, in terms of the association list. -/
lemma cache_get_fst (c : EmbeddingCache) (key : String) :
    (c.get key).1 = (c.entries.find? (fun e => e.1 == key)).map Prod.snd := by
  unfold EmbeddingCache.get
  cases c.entries.find? (fun e => e.1 == key) <;> rfl

/-- In a list with duplicate-free keys, `find?` by the key of a member
returns that member. -/
lemma find?_key_nodup {l : List (String × Vec)} {x : String × Vec}
    (hnd : (l.map Prod.fst).Nodup) (hx : x ∈ l) :
    l.find? (fun q => q.1 == x.1) = some x := by
  induction l with
  | nil => cases hx
  | cons y ys ih =>
    rw [List.map_cons, List.nodup_cons] at hnd
    rcases List.mem_cons.mp hx with hx | hx
    · subst hx
      exact List.find?_cons_of_pos _ (by simp)
    · have hy : ¬(y.1 == x.1) = true := by
        intro hxy
        have h1 : y.1 = x.1 := by simpa using hxy
        exact hnd.1 (h1 ▸ List.mem_map_of_mem Prod.fst hx)
      have hstep : List.find? (fun q => q.1 == x.1) (y :: ys)
          = List.find? (fun q => q.1 == x.1) ys :=
        List.find?_cons_of_neg ys hy
      rw [hstep]
      exact ih hnd.2 hx

/-- **C6.** For a cache of capacity `N ≥ 1`: (a) no sequence of `get` and
`set` operations ever pushes the entry count above `N`; (b) after
inserting `N + k` distinct hashes with non-empty vectors into an empty
cache with no intervening re-access, `get` on each of the first `k`
inserted hashes returns absent, and `get` on each of the last `N` returns
its stored vector. -/
theorem lru_cache_capacity_and_eviction (N k : Nat) (hN : 1 ≤ N) :
    (∀ (ops : List CacheOp) (c : EmbeddingCache), c.max_size = N →
      c.entries.length ≤ N → (runCacheOps c ops).entries.length ≤ N)
    ∧ (∀ ps : List (String × Vec),
        (ps.map Prod.fst).Nodup →
        (∀ p ∈ ps, p.2 ≠ []) →
        ps.length = N + k →
        ∀ i (hi : i < ps.length),
          ((runCacheOps { max_size := N, entries := [] }
              (ps.map (fun p => CacheOp.set p.1 p.2))).get ps[i].1).1
            = if i < k then none else some ps[i].2) := by
  constructor
  · intro ops c hmax hlen
    have h2 := (runCacheOps_capacity ops c (by rw [hmax]; exact hN)
      (by rw [hmax]; exact hlen)).2
    rw [hmax] at h2
    exact h2
  · intro ps hnd hne hlen i hi
    have hdropped := foldl_set_fresh N hN ps [] (by simpa using hnd) hne (by simp)
    rw [List.nil_append, List.length_nil, Nat.zero_add, hlen,
      Nat.add_sub_cancel_left] at hdropped
    rw [cache_get_fst, hdropped]
    have hndk : ((ps.drop k).map Prod.fst).Nodup :=
      List.Nodup.sublist ((ps.drop_sublist k).map Prod.fst) hnd
    by_cases hik : i < k
    · rw [if_pos hik]
      have hmemtake : ps[i] ∈ ps.take k := by
        have hlt : i < (ps.take k).length := by
          rw [List.length_take]; exact lt_min hik hi
        have heq : (ps.take k)[i] = ps[i] := by simp [List.getElem_take]
        exact heq ▸ List.getElem_mem hlt
      have hnone : (ps.drop k).find? (fun q => q.1 == ps[i].1) = none := by
        rw [List.find?_eq_none]
        intro x hx hxp
        have hx1 : x.1 = ps[i].1 := by simpa using hxp
        have hndsplit : ((ps.take k ++ ps.drop k).map Prod.fst).Nodup := by
          rw [List.take_append_drop]; exact hnd
        have hdisj := (List.nodup_append.mp (by rwa [List.map_append] at hndsplit)).2.2
        exact hdisj (List.mem_map_of_mem Prod.fst hmemtake)
          (hx1 ▸ List.mem_map_of_mem Prod.fst hx)
      rw [hnone]
      rfl
    · rw [if_neg hik]
      have hmem : ps[i] ∈ ps.drop k := by
        have hlt : i - k < (ps.drop k).length := by
          rw [List.length_drop]; omega
        have heq : (ps.drop k)[i - k] = ps[i] := by
          rw [List.getElem_drop]
          congr 1
          omega
        exact heq ▸ List.getElem_mem hlt
      rw [find?_key_nodup hndk hmem]
      rfl

/-- Witness for C6 at capacity 2 with 3 distinct inserts: the first hash is
evicted, the last two are retained with their vectors. -/
theorem lru_cache_capacity_and_eviction_witness :
    (1 ≤ 2)
    ∧ ((runCacheOps { max_size := 2, entries := [] }
        ([("a", [1]), ("b", [2]), ("c", [3])].map (fun p => CacheOp.set p.1 p.2))).get "a").1
      = none
    ∧ ((runCacheOps { max_size := 2, entries := [] }
        ([("a", [1]), ("b", [2]), ("c", [3])].map (fun p => CacheOp.set p.1 p.2))).get "b").1
      = some [2]
    ∧ ((runCacheOps { max_size := 2, entries := [] }
        ([("a", [1]), ("b", [2]), ("c", [3])].map (fun p => CacheOp.set p.1 p.2))).get "c").1
      = some [3] := by
  have h := (lru_cache_capacity_and_eviction 2 1 (by decide)).2
    [("a", [1]), ("b", [2]), ("c", [3])] (by decide) (by decide) (by decide)
  refine ⟨by decide, ?_, ?_, ?_⟩
  · simpa using h 0 (by decide)
  · simpa using h 1 (by decide)
  · simpa using h 2 (by decide)

/-- One key occurs exactly once in a list whose keys are duplicate-free. -/
lemma length_filter_key_eq_one {α : Type} (g : α → Nat) (l : List α) (a : Nat)
    (hnd : (l.map g).Nodup) (ha : a ∈ l.map g) :
    (l.filter (fun x => g x == a)).length = 1 := by
  have h1 : (l.filter (fun x => g x == a)).length = l.countP (fun x => g x == a) :=
    (List.countP_eq_length_filter _ _).symm
  have h2 : l.countP (fun x => g x == a) = (l.map g).countP (fun x => x == a) :=
    (List.countP_map (fun x => x == a) g l).symm
  have h3 : (l.map g).countP (fun x => x == a) = (l.map g).count a := rfl
  rw [h1, h2, h3]
  exact List.count_eq_one_of_mem hnd ha

/-- A fresh id: ids bounded by the counter never equal the counter. -/
lemma fresh_id_not_mem {db : DB} (h : ∀ m ∈ db.memories, m.id < db.next_id) :
    db.next_id ∉ memIds db := by
  intro hmem
  obtain ⟨m, hm, hid⟩ := List.mem_map.mp hmem
  exact absurd hid (Nat.ne_of_lt (h m hm))

/-- A successful insert preserves the store invariant. -/
lemma wf_insert {hashFn : String → String} {now : Nat} {content : String} {embedding : Vec}
    {priority : String} {category : Option String} {tags : Option (List String)}
    {project_id source : Option String} {em emv : String} {dim : Nat} {db : DB}
    {i : Nat} {db2 : DB} (hwf : Wf db)
    (hins : DatabaseManager.insert_memory hashFn now content embedding priority category tags
      project_id source em emv dim db = .ok (i, db2)) : Wf db2 := by
  obtain ⟨_, hmem, hvec, hnext, hfresh⟩ := insert_memory_ok_shape hins
  have hmids : memIds db2 = memIds db ++ [db.next_id] := by
    rw [memIds, hmem, List.map_append]
    rfl
  have hvids : vecIds db2 = vecIds db ++ [db.next_id] := by
    rw [vecIds, hvec, List.map_append]
    rfl
  have hhashes : hashes db2 = hashes db ++ [hashFn content] := by
    rw [hashes, hmem, List.map_append]
    rfl
  refine ⟨?_, ?_, ?_, ?_, ?_, ?_⟩
  · rw [hmids, List.nodup_append]
    refine ⟨hwf.mem_nodup, List.nodup_singleton _, ?_⟩
    intro a ha hb
    rw [List.mem_singleton] at hb
    subst hb
    exact fresh_id_not_mem hwf.mem_lt ha
  · rw [hvids, List.nodup_append]
    refine ⟨hwf.vec_nodup, List.nodup_singleton _, ?_⟩
    intro a ha hb
    rw [List.mem_singleton] at hb
    subst hb
    exact fresh_id_not_mem hwf.mem_lt ((hwf.ids_eq db.next_id).mpr ha)
  · intro j
    rw [hmids, hvids, List.mem_append, List.mem_append]
    rw [hwf.ids_eq j]
  · rw [hhashes, List.nodup_append]
    refine ⟨hwf.hash_nodup, List.nodup_singleton _, ?_⟩
    intro a ha hb
    rw [List.mem_singleton] at hb
    subst hb
    obtain ⟨m, hm, hid⟩ := List.mem_map.mp ha
    exact hfresh m hm hid
  · intro m hm
    rw [hmem] at hm
    rw [hnext]
    rcases List.mem_append.mp hm with hm | hm
    · exact lt_trans (hwf.mem_lt m hm) (Nat.lt_succ_self _)
    · rw [List.mem_singleton.mp hm]
      exact Nat.lt_succ_self _
  · intro v hv
    rw [hvec] at hv
    rw [hnext]
    rcases List.mem_append.mp hv with hv | hv
    · exact lt_trans (hwf.vec_lt v hv) (Nat.lt_succ_self _)
    · rw [List.mem_singleton.mp hv]
      exact Nat.lt_succ_self _

/-- A delete preserves the store invariant. -/
lemma wf_delete (i : Nat) {db : DB} (hwf : Wf db) :
    Wf (DatabaseManager.delete_memory i db).2 := by
  have hmids : ∀ j, j ∈ memIds (DatabaseManager.delete_memory i db).2
      ↔ j ∈ memIds db ∧ j ≠ i := by
    intro j
    simp only [memIds, DatabaseManager.delete_memory, List.mem_map, List.mem_filter,
      bne_iff_ne, ne_eq]
    constructor
    · rintro ⟨m, ⟨hm, hne⟩, hid⟩
      exact ⟨⟨m, hm, hid⟩, hid ▸ hne⟩
    · rintro ⟨⟨m, hm, hid⟩, hne⟩
      exact ⟨m, ⟨hm, hid ▸ hne⟩, hid⟩
  have hvids : ∀ j, j ∈ vecIds (DatabaseManager.delete_memory i db).2
      ↔ j ∈ vecIds db ∧ j ≠ i := by
    intro j
    simp only [vecIds, DatabaseManager.delete_memory, List.mem_map, List.mem_filter,
      bne_iff_ne, ne_eq]
    constructor
    · rintro ⟨v, ⟨hv, hne⟩, hid⟩
      exact ⟨⟨v, hv, hid⟩, hid ▸ hne⟩
    · rintro ⟨⟨v, hv, hid⟩, hne⟩
      exact ⟨v, ⟨hv, hid ▸ hne⟩, hid⟩
  refine ⟨?_, ?_, ?_, ?_, ?_, ?_⟩
  · exact List.Nodup.sublist ((List.filter_sublist _).map Row.id) hwf.mem_nodup
  · exact List.Nodup.sublist ((List.filter_sublist _).map VecRow.memory_id) hwf.vec_nodup
  · intro j
    rw [hmids j, hvids j, hwf.ids_eq j]
  · exact List.Nodup.sublist ((List.filter_sublist _).map Row.content_hash) hwf.hash_nodup
  · intro m hm
    exact hwf.mem_lt m (List.mem_of_mem_filter hm)
  · intro v hv
    exact hwf.vec_lt v (List.mem_of_mem_filter hv)

/-- Every single store-level mutation preserves the invariant. -/
lemma wf_applyStoreOp (hashFn : String → String) (now : Nat) (op : StoreOp) {db : DB}
    (hwf : Wf db) : Wf (applyStoreOp hashFn now db op) := by
  cases op with
  | ins c e p cat t proj src em emv dim =>
    rw [applyStoreOp]
    cases hins : DatabaseManager.insert_memory hashFn now c e p cat t proj src em emv dim db with
    | ok r => exact wf_insert hwf (by rw [hins])
    | error e2 => exact hwf
  | del i => exact wf_delete i hwf

/-- A whole sequence of store-level mutations preserves the invariant. -/
lemma wf_applyStoreOps (hashFn : String → String) (now : Nat) (ops : List StoreOp) :
    ∀ {db : DB}, Wf db → Wf (applyStoreOps hashFn now ops db) := by
  induction ops with
  | nil => exact fun h => h
  | cons op ops ih => exact fun h => ih (wf_applyStoreOp hashFn now op h)

/-- **C3.** The store invariant — the duplicate-free bijection between
memory ids and vector ids (hence: exactly one vector row per memory row
and conversely), pairwise-distinct content hashes, and id freshness — is
preserved by every sequence of `insert_memory` / `delete_memory`
operations; and an insert whose content hash already exists fails (the
UNIQUE constraint on the memories insert fires before the vector insert is
reached) leaving the store completely unchanged. -/
theorem store_invariants_preserved (hashFn : String → String) (now : Nat) (db : DB)
    (hwf : Wf db) :
    (∀ ops : List StoreOp, Wf (applyStoreOps hashFn now ops db))
    ∧ (∀ m ∈ db.memories,
        (db.vectors.filter (fun v => v.memory_id == m.id)).length = 1)
    ∧ (∀ v ∈ db.vectors,
        (db.memories.filter (fun m => m.id == v.memory_id)).length = 1)
    ∧ (hashes db).Nodup
    ∧ (∀ (content : String) (embedding : Vec) (priority : String) (category : Option String)
        (tags : Option (List String)) (project_id source : Option String)
        (em emv : String) (dim : Nat),
        hashFn content ∈ hashes db →
        (∃ e, DatabaseManager.insert_memory hashFn now content embedding priority category
            tags project_id source em emv dim db = .error e)
        ∧ applyStoreOp hashFn now db
            (.ins content embedding priority category tags project_id source em emv dim)
          = db) := by
  refine ⟨?_, ?_, ?_, hwf.hash_nodup, ?_⟩
  · exact fun ops => wf_applyStoreOps hashFn now ops hwf
  · intro m hm
    exact length_filter_key_eq_one VecRow.memory_id db.vectors m.id hwf.vec_nodup
      ((hwf.ids_eq m.id).mp (List.mem_map_of_mem Row.id hm))
  · intro v hv
    exact length_filter_key_eq_one Row.id db.memories v.memory_id hwf.mem_nodup
      ((hwf.ids_eq v.memory_id).mpr (List.mem_map_of_mem VecRow.memory_id hv))
  · intro content embedding priority category tags project_id source em emv dim hdup
    cases hres : DatabaseManager.insert_memory hashFn now content embedding priority
        category tags project_id source em emv dim db with
    | error e =>
      exact ⟨⟨e, rfl⟩, by simp [applyStoreOp, hres]⟩
    | ok r =>
      exfalso
      obtain ⟨i2, db3⟩ := r
      have hshape := insert_memory_ok_shape hres
      obtain ⟨m, hm, hh⟩ := List.mem_map.mp hdup
      exact hshape.2.2.2.2 m hm hh

/-- Witness for C3: the one-row database `dbHello` satisfies the invariant,
and its single memory row has exactly one vector row. -/
theorem store_invariants_preserved_witness :
    Wf dbHello
    ∧ (∀ m ∈ dbHello.memories,
        (dbHello.vectors.filter (fun v => v.memory_id == m.id)).length = 1) := by
  have hwf : Wf dbHello :=
    ⟨by decide, by decide, fun _ => Iff.rfl, by decide, by decide, by decide⟩
  exact ⟨hwf, (store_invariants_preserved (fun s => s) 0 dbHello hwf).2.1⟩

/-- The access-count bump applied by `update_access_count` to matching
rows. -/
def bumpRow (now : Nat) (m : Row) : Row :=
  { m with access_count := m.access_count + 1, last_accessed_at := some now }

/-- `search_memory` returns the state unchanged: every database access on
the search path (`vector_search`, `get_memory_by_id`) is a read. -/
lemma search_memory_state (ctx : MemCtx) (query : String) (limit : Nat)
    (filters : SearchFilters) (st : SvcState) :
    (MemoryService.search_memory ctx query limit filters st).2 = st := by
  by_cases h1 : pyStrip query = ""
  · simp [MemoryService.search_memory, h1]
  · cases hv : ctx.vsearch st.db (ctx.embedFn query) (limit * 2) ctx.sim_threshold with
    | nil => simp [MemoryService.search_memory, h1, hv]
    | cons a l => simp [MemoryService.search_memory, h1, hv]

/-- The service-level `list_memories` returns the state unchanged. -/
lemma list_memories_state (ctx : MemCtx) (filters : ListFilters)
    (sort_by sort_order : String) (limit offset : Nat) (st : SvcState) :
    (MemoryService.list_memories ctx filters sort_by sort_order limit offset st).2 = st := by
  unfold MemoryService.list_memories
  cases DatabaseManager.list_memories ctx.engine filters sort_by sort_order (limit + 1)
      offset st.db <;> rfl

/-- Looking up the bumped id after `update_access_count`. -/
lemma find?_id_map_bump (i now : Nat) (l : List Row) :
    (l.map (fun m => if m.id = i then bumpRow now m else m)).find? (fun m => m.id == i)
      = (l.find? (fun m => m.id == i)).map (bumpRow now) := by
  induction l with
  | nil => rfl
  | cons x xs ih =>
    rw [List.map_cons]
    by_cases hx : x.id = i
    · have hpred : ((if x.id = i then bumpRow now x else x).id == i) = true := by
        rw [if_pos hx]
        simp [bumpRow, hx]
      have h1 : List.find? (fun m => m.id == i)
          ((if x.id = i then bumpRow now x else x)
            :: xs.map (fun m => if m.id = i then bumpRow now m else m))
          = some (if x.id = i then bumpRow now x else x) :=
        List.find?_cons_of_pos _ hpred
      have h2 : List.find? (fun m => m.id == i) (x :: xs) = some x :=
        List.find?_cons_of_pos _ (by simp [hx])
      rw [h1, h2, if_pos hx]
      rfl
    · have hpred : ¬((if x.id = i then bumpRow now x else x).id == i) = true := by
        rw [if_neg hx]
        simp [hx]
      have h1 : List.find? (fun m => m.id == i)
          ((if x.id = i then bumpRow now x else x)
            :: xs.map (fun m => if m.id = i then bumpRow now m else m))
          = List.find? (fun m => m.id == i)
              (xs.map (fun m => if m.id = i then bumpRow now m else m)) :=
        List.find?_cons_of_neg _ hpred
      have h2 : List.find? (fun m => m.id == i) (x :: xs)
          = List.find? (fun m => m.id == i) xs :=
        List.find?_cons_of_neg _ (by simp [hx])
      rw [h1, h2]
      exact ih

/-- Looking up any other id after `update_access_count`: unchanged. -/
lemma find?_id_map_bump_ne (i j now : Nat) (hne : j ≠ i) (l : List Row) :
    (l.map (fun m => if m.id = i then bumpRow now m else m)).find? (fun m => m.id == j)
      = l.find? (fun m => m.id == j) := by
  induction l with
  | nil => rfl
  | cons x xs ih =>
    rw [List.map_cons]
    by_cases hx : x.id = j
    · have hxi : ¬ x.id = i := by rw [hx]; exact hne
      have hpred : ((if x.id = i then bumpRow now x else x).id == j) = true := by
        rw [if_neg hxi]
        simp [hx]
      have h1 : List.find? (fun m => m.id == j)
          ((if x.id = i then bumpRow now x else x)
            :: xs.map (fun m => if m.id = i then bumpRow now m else m))
          = some (if x.id = i then bumpRow now x else x) :=
        List.find?_cons_of_pos _ hpred
      have h2 : List.find? (fun m => m.id == j) (x :: xs) = some x :=
        List.find?_cons_of_pos _ (by simp [hx])
      rw [h1, h2, if_neg hxi]
    · have hpred : ¬((if x.id = i then bumpRow now x else x).id == j) = true := by
        by_cases hxi : x.id = i
        · rw [if_pos hxi]
          simp [bumpRow, hx]
        · rw [if_neg hxi]
          simp [hx]
      have h1 : List.find? (fun m => m.id == j)
          ((if x.id = i then bumpRow now x else x)
            :: xs.map (fun m => if m.id = i then bumpRow now m else m))
          = List.find? (fun m => m.id == j)
              (xs.map (fun m => if m.id = i then bumpRow now m else m)) :=
        List.find?_cons_of_neg _ hpred
      have h2 : List.find? (fun m => m.id == j) (x :: xs)
          = List.find? (fun m => m.id == j) xs :=
        List.find?_cons_of_neg _ (by simp [hx])
      rw [h1, h2]
      exact ih

/-- The database left behind by `store_memory` under sequential execution:
either unchanged, or exactly the database produced by a successful
store-level insert on the current database. -/
lemma store_memory_db_cases (ctx : MemCtx) (hother : ∀ d, ctx.other d = d)
    (content : String) (tags : Option (List String)) (priority : String)
    (category source project_id : Option String) (st : SvcState) :
    (MemoryService.store_memory ctx content tags priority category source project_id st).2.db
      = st.db
    ∨ ∃ i db2,
        DatabaseManager.insert_memory ctx.hashFn ctx.now content
          (MemoryService.cachedEmbed ctx.embedFn st.cache (ctx.hashFn content) content).1
          priority category tags project_id source ctx.model_name ctx.model_version
          ctx.dimension st.db = .ok (i, db2)
        ∧ (MemoryService.store_memory ctx content tags priority category source project_id
            st).2.db = db2 := by
  by_cases h1 : pyStrip content = ""
  · exact Or.inl (by simp [MemoryService.store_memory, h1])
  · cases hdup : DatabaseManager.check_duplicate_hash (ctx.hashFn content) st.db with
    | some existing => exact Or.inl (by simp [MemoryService.store_memory, h1, hdup])
    | none =>
      cases hins : DatabaseManager.insert_memory ctx.hashFn ctx.now content
          (MemoryService.cachedEmbed ctx.embedFn st.cache (ctx.hashFn content) content).1
          priority category tags project_id source ctx.model_name ctx.model_version
          ctx.dimension st.db with
      | ok r =>
        obtain ⟨i, db2⟩ := r
        refine Or.inr ⟨i, db2, rfl, ?_⟩
        simp [MemoryService.store_memory, h1, hdup, hother, hins]
      | error e =>
        exact Or.inl (by simp [MemoryService.store_memory, h1, hdup, hother, hins])

/-- `find?` ignores a filter that can only remove non-matching elements. -/
lemma find?_filter_of_imp {α : Type} (p q : α → Bool) (l : List α)
    (himp : ∀ x, p x = true → q x = true) :
    (l.filter q).find? p = l.find? p := by
  induction l with
  | nil => rfl
  | cons x xs ih =>
    by_cases hq : q x = true
    · rw [List.filter_cons_of_pos hq]
      by_cases hp : p x = true
      · have h1 : List.find? p (x :: xs.filter q) = some x := List.find?_cons_of_pos _ hp
        have h2 : List.find? p (x :: xs) = some x := List.find?_cons_of_pos _ hp
        rw [h1, h2]
      · have h1 : List.find? p (x :: xs.filter q) = List.find? p (xs.filter q) :=
          List.find?_cons_of_neg _ hp
        have h2 : List.find? p (x :: xs) = List.find? p xs := List.find?_cons_of_neg _ hp
        rw [h1, h2]
        exact ih
    · rw [List.filter_cons_of_neg hq]
      have hp : ¬ p x = true := fun hp => hq (himp x hp)
      have h2 : List.find? p (x :: xs) = List.find? p xs := List.find?_cons_of_neg _ hp
      rw [h2]
      exact ih

/-- Lookup after a store-level delete: the deleted id is gone, all others
are untouched. -/
lemma get_memory_by_id_delete (i j : Nat) (db : DB) :
    DatabaseManager.get_memory_by_id j (DatabaseManager.delete_memory i db).2
      = if j = i then none else DatabaseManager.get_memory_by_id j db := by
  by_cases hji : j = i
  · subst hji
    rw [if_pos rfl]
    exact find?_filter_ne_id j db.memories
  · rw [if_neg hji]
    exact find?_filter_of_imp _ _ db.memories (fun x hx => by
      have : x.id = j := by simpa using hx
      simp [this, hji])

/-- Lookup of the bumped id after `update_access_count`. -/
lemma get_memory_by_id_update_self (i now : Nat) (db : DB) :
    DatabaseManager.get_memory_by_id i (DatabaseManager.update_access_count i now db)
      = (DatabaseManager.get_memory_by_id i db).map (bumpRow now) :=
  find?_id_map_bump i now db.memories

/-- Lookup of any other id after `update_access_count`: unchanged. -/
lemma get_memory_by_id_update_ne (i j now : Nat) (hne : j ≠ i) (db : DB) :
    DatabaseManager.get_memory_by_id j (DatabaseManager.update_access_count i now db)
      = DatabaseManager.get_memory_by_id j db :=
  find?_id_map_bump_ne i j now hne db.memories

/-- The database left behind by `delete_memory` at the service level:
either unchanged or a store-level delete of some id. -/
lemma delete_memory_db_cases (mid : Option Nat) (ch : Option String) (st : SvcState) :
    (MemoryService.delete_memory mid ch st).2.db = st.db
    ∨ ∃ i, (MemoryService.delete_memory mid ch st).2.db
        = (DatabaseManager.delete_memory i st.db).2 := by
  cases mid with
  | some i => exact Or.inr ⟨i, rfl⟩
  | none =>
    cases ch with
    | none => exact Or.inl rfl
    | some h =>
      cases hg : DatabaseManager.get_memory_by_hash h st.db with
      | some m =>
        exact Or.inr ⟨m.id, by
          simp [MemoryService.delete_memory, hg, MemoryService.delete_by_id]⟩
      | none => exact Or.inl (by simp [MemoryService.delete_memory, hg])

/-- The single-step frame facts used by the monotonicity chain: every
service operation (under sequential execution) preserves id freshness,
never decreases the id counter, never decreases the access count of a row
it keeps, and never resurrects an id that is absent and below the
counter. -/
lemma runOp_step (ctx : MemCtx) (hother : ∀ d, ctx.other d = d) (op : SOp)
    (st : SvcState) (hb : IdsBounded st.db) :
    IdsBounded (runOp ctx st op).db
    ∧ st.db.next_id ≤ (runOp ctx st op).db.next_id
    ∧ (∀ j m, DatabaseManager.get_memory_by_id j st.db = some m →
        DatabaseManager.get_memory_by_id j (runOp ctx st op).db = none
        ∨ ∃ m2, DatabaseManager.get_memory_by_id j (runOp ctx st op).db = some m2
            ∧ m.access_count ≤ m2.access_count)
    ∧ (∀ j, j < st.db.next_id →
        DatabaseManager.get_memory_by_id j st.db = none →
        DatabaseManager.get_memory_by_id j (runOp ctx st op).db = none) := by
  cases op with
  | search q l f =>
    rw [runOp, search_memory_state]
    exact ⟨hb, le_refl _, fun j m hm => Or.inr ⟨m, hm, le_refl _⟩, fun j _ hn => hn⟩
  | list f sb so l o =>
    rw [runOp, list_memories_state]
    exact ⟨hb, le_refl _, fun j m hm => Or.inr ⟨m, hm, le_refl _⟩, fun j _ hn => hn⟩
  | del mid ch =>
    rcases delete_memory_db_cases mid ch st with hdb | ⟨i, hdb⟩
    · rw [runOp, hdb]
      exact ⟨hb, le_refl _, fun j m hm => Or.inr ⟨m, hm, le_refl _⟩, fun j _ hn => hn⟩
    · rw [runOp, hdb]
      refine ⟨?_, le_refl _, ?_, ?_⟩
      · intro m hm
        exact hb m (List.mem_of_mem_filter hm)
      · intro j m hm
        rw [get_memory_by_id_delete]
        by_cases hji : j = i
        · rw [if_pos hji]
          exact Or.inl rfl
        · rw [if_neg hji]
          exact Or.inr ⟨m, hm, le_refl _⟩
      · intro j _ hn
        rw [get_memory_by_id_delete]
        by_cases hji : j = i
        · rw [if_pos hji]
        · rw [if_neg hji]
          exact hn
  | get i =>
    cases hg : DatabaseManager.get_memory_by_id i st.db with
    | none =>
      have hdb : (runOp ctx st (.get i)).db = st.db := by
        simp [runOp, MemoryService.get_memory, hg]
      rw [hdb]
      exact ⟨hb, le_refl _, fun j m hm => Or.inr ⟨m, hm, le_refl _⟩, fun j _ hn => hn⟩
    | some m0 =>
      have hdb : (runOp ctx st (.get i)).db
          = DatabaseManager.update_access_count i ctx.now st.db := by
        simp [runOp, MemoryService.get_memory, hg]
      rw [hdb]
      refine ⟨?_, le_refl _, ?_, ?_⟩
      · intro m hm
        simp only [DatabaseManager.update_access_count, List.mem_map] at hm
        obtain ⟨r, hr, hrm⟩ := hm
        have : m.id = r.id := by
          subst hrm
          by_cases hri : r.id = i <;> simp [bumpRow, hri]
        rw [DatabaseManager.update_access_count]
        rw [this]
        exact hb r hr
      · intro j m hm
        by_cases hji : j = i
        · subst hji
          rw [get_memory_by_id_update_self, hm]
          exact Or.inr ⟨bumpRow ctx.now m, rfl, Nat.le_succ _⟩
        · rw [get_memory_by_id_update_ne i j ctx.now hji]
          exact Or.inr ⟨m, hm, le_refl _⟩
      · intro j _ hn
        by_cases hji : j = i
        · subst hji
          rw [get_memory_by_id_update_self, hn]
          rfl
        · rw [get_memory_by_id_update_ne i j ctx.now hji]
          exact hn
  | store content tags priority category source project_id =>
    rcases store_memory_db_cases ctx hother content tags priority category source project_id st
      with hdb | ⟨i, db2, hins, hdb⟩
    · rw [runOp, hdb]
      exact ⟨hb, le_refl _, fun j m hm => Or.inr ⟨m, hm, le_refl _⟩, fun j _ hn => hn⟩
    · obtain ⟨hid, hmem, _, hnext, _⟩ := insert_memory_ok_shape hins
      have hfind : ∀ j, DatabaseManager.get_memory_by_id j db2
          = (st.db.memories.find? (fun m => m.id == j)).or
              (if st.db.next_id = j
               then some { id := st.db.next_id, content, content_hash := ctx.hashFn content,
                           priority, category, tags, project_id, source,
                           created_at := ctx.now, updated_at := ctx.now,
                           embedding_model := ctx.model_name,
                           embedding_model_version := ctx.model_version,
                           embedding_dimension := ctx.dimension, access_count := 0,
                           last_accessed_at := none }
               else none) := by
        intro j
        rw [DatabaseManager.get_memory_by_id, hmem, List.find?_append]
        congr 1
        by_cases hj : st.db.next_id = j
        · rw [if_pos hj]
          exact List.find?_cons_of_pos _ (by simp [hj])
        · rw [if_neg hj]
          rw [List.find?_eq_none]
          intro x hx
          rw [List.mem_singleton] at hx
          subst hx
          simp [hj]
      rw [runOp, hdb]
      refine ⟨?_, ?_, ?_, ?_⟩
      · intro m hm
        rw [hmem] at hm
        rw [hnext]
        rcases List.mem_append.mp hm with hm | hm
        · exact lt_trans (hb m hm) (Nat.lt_succ_self _)
        · rw [List.mem_singleton.mp hm]
          exact Nat.lt_succ_self _
      · rw [hnext]
        exact Nat.le_succ _
      · intro j m hm
        have hm2 : List.find? (fun r => r.id == j) st.db.memories = some m := hm
        have hor : ∀ o : Option Row, (some m).or o = some m := fun _ => rfl
        rw [hfind j, hm2, hor]
        exact Or.inr ⟨m, rfl, le_refl _⟩
      · intro j hj hn
        have hn2 : List.find? (fun r => r.id == j) st.db.memories = none := hn
        have hor : ∀ o : Option Row, (Option.or none o) = o := fun _ => rfl
        rw [hfind j, hn2, hor, if_neg (by omega)]

/-- Once an id below the counter is absent, it stays absent under any
sequential operation sequence (ids are never reused). -/
lemma runOps_none (ctx : MemCtx) (hother : ∀ d, ctx.other d = d) (ops : List SOp) :
    ∀ (st : SvcState) (j : Nat), IdsBounded st.db → j < st.db.next_id →
      DatabaseManager.get_memory_by_id j st.db = none →
      DatabaseManager.get_memory_by_id j (runOps ctx ops st).db = none := by
  induction ops with
  | nil => exact fun st j _ _ h => h
  | cons op ops ih =>
    intro st j hb hj hn
    have hstep := runOp_step ctx hother op st hb
    exact ih (runOp ctx st op) j hstep.1 (lt_of_lt_of_le hj hstep.2.1)
      (hstep.2.2.2 j hj hn)

/-- Access counts never decrease across any sequential operation
sequence. -/
lemma runOps_access_count_mono (ctx : MemCtx) (hother : ∀ d, ctx.other d = d)
    (ops : List SOp) :
    ∀ (st : SvcState) (j : Nat) (m m2 : Row), IdsBounded st.db →
      DatabaseManager.get_memory_by_id j st.db = some m →
      DatabaseManager.get_memory_by_id j (runOps ctx ops st).db = some m2 →
      m.access_count ≤ m2.access_count := by
  induction ops with
  | nil =>
    intro st j m m2 _ h1 h2
    have h2b : DatabaseManager.get_memory_by_id j st.db = some m2 := h2
    rw [h1] at h2b
    injection h2b with h
    rw [h]
  | cons op ops ih =>
    intro st j m m2 hb h1 h2
    have hstep := runOp_step ctx hother op st hb
    have h2b : DatabaseManager.get_memory_by_id j
        (runOps ctx ops (runOp ctx st op)).db = some m2 := h2
    have hj : j < st.db.next_id := by
      have hmem := List.mem_of_find?_eq_some h1
      have hpred := List.find?_some h1
      have hmj : m.id = j := by simpa using hpred
      have := hb m hmem
      omega
    rcases hstep.2.2.1 j m h1 with hnone | ⟨mm, hmm, hle⟩
    · have hstay : DatabaseManager.get_memory_by_id j (runOps ctx ops (runOp ctx st op)).db
          = none :=
        runOps_none ctx hother ops (runOp ctx st op) j hstep.1
          (lt_of_lt_of_le hj hstep.2.1) hnone
      rw [hstay] at h2b
      exact Option.noConfusion h2b
    · exact le_trans hle (ih (runOp ctx st op) j mm m2 hstep.1 hmm h2b)

/-- **C8.** `search_memory` leaves the whole state unchanged (in
particular it never increments an access count); `get_memory` on a present
row returns it and bumps exactly that row's `access_count` by 1 while
setting its `last_accessed_at`, touching no other row; consequently, under
sequential execution the access count of a surviving row is monotonically
non-decreasing across every sequence of service operations. -/
theorem search_readonly_get_bumps_access_monotone :
    (∀ (ctx : MemCtx) (query : String) (limit : Nat) (filters : SearchFilters)
        (st : SvcState),
      (MemoryService.search_memory ctx query limit filters st).2 = st)
    ∧ (∀ (now i : Nat) (st : SvcState) (m : Row),
        DatabaseManager.get_memory_by_id i st.db = some m →
        (MemoryService.get_memory now i st).1 = some m
        ∧ (MemoryService.get_memory now i st).2.db.memories
            = st.db.memories.map (fun r => if r.id = i then bumpRow now r else r)
        ∧ DatabaseManager.get_memory_by_id i (MemoryService.get_memory now i st).2.db
            = some (bumpRow now m)
        ∧ (∀ j, j ≠ i →
            DatabaseManager.get_memory_by_id j (MemoryService.get_memory now i st).2.db
              = DatabaseManager.get_memory_by_id j st.db))
    ∧ (∀ (ctx : MemCtx), (∀ d, ctx.other d = d) →
        ∀ (ops : List SOp) (st : SvcState) (j : Nat) (m m2 : Row),
          IdsBounded st.db →
          DatabaseManager.get_memory_by_id j st.db = some m →
          DatabaseManager.get_memory_by_id j (runOps ctx ops st).db = some m2 →
          m.access_count ≤ m2.access_count) := by
  refine ⟨search_memory_state, ?_, runOps_access_count_mono⟩
  intro now i st m hm
  have hget2 : (MemoryService.get_memory now i st).2
      = { st with db := DatabaseManager.update_access_count i now st.db } := by
    simp [MemoryService.get_memory, hm]
  refine ⟨by simp [MemoryService.get_memory, hm], ?_, ?_, ?_⟩
  · rw [hget2]
    rfl
  · rw [hget2]
    have h1 : DatabaseManager.get_memory_by_id i
        ({ st with db := DatabaseManager.update_access_count i now st.db } : SvcState).db
        = (DatabaseManager.get_memory_by_id i st.db).map (bumpRow now) :=
      get_memory_by_id_update_self i now st.db
    rw [h1, hm]
    rfl
  · intro j hj
    rw [hget2]
    exact get_memory_by_id_update_ne i j now hj st.db

/-- Witness for C8: fetching memory 1 of `stHello` returns the stored row
and bumps exactly its access count; a concrete monotonicity instance over
the one-operation sequence `[get 1]`. -/
theorem search_readonly_get_bumps_access_monotone_witness :
    DatabaseManager.get_memory_by_id 1 stHello.db = some (mkRow 1 "hello")
    ∧ (MemoryService.get_memory 5 1 stHello).1 = some (mkRow 1 "hello")
    ∧ DatabaseManager.get_memory_by_id 1 (MemoryService.get_memory 5 1 stHello).2.db
        = some (bumpRow 5 (mkRow 1 "hello"))
    ∧ (mkRow 1 "hello").access_count ≤ (bumpRow 0 (mkRow 1 "hello")).access_count := by
  have h2 := search_readonly_get_bumps_access_monotone.2.1 5 1 stHello (mkRow 1 "hello")
    (by decide)
  have h3 := search_readonly_get_bumps_access_monotone.2.2 ctx0 (fun _ => rfl)
    [SOp.get 1] stHello 1 (mkRow 1 "hello") (bumpRow 0 (mkRow 1 "hello"))
    (by unfold IdsBounded; decide) (by decide) (by decide)
  exact ⟨by decide, h2.1, h2.2.2.1, h3⟩

/-- Counterexample to C1 as stated: in the raced run of `ctxC1` the
store-level insert raises `DuplicateHash`, and `store_memory` propagates a
`RuntimeError` instead of returning the claimed successful duplicate
response for the existing memory (id 1). -/
theorem store_memory_duplicate_insert_counterexample :
    (MemoryService.store_memory ctxC1 "hello" none "NORMAL" none none none st0).1
      = .error (.runtimeError .duplicateHash)
    ∧ (MemoryService.store_memory ctxC1 "hello" none "NORMAL" none none none st0).1
      ≠ .ok { memory_id := 1, duplicate := true, near_duplicate := none, success := true } :=
  ⟨by decide, by decide⟩

end MemoryServer
